import Mathlib

/-!
Verification of the media path resolution & transformation engine of the
ghost-webp-conversion repository.  The Python sources (file_handler.py,
api_handler.py, db_handler.py, cleanup.py, reorganize.py, main.py) are
shallowly embedded below: strings are Lean `String`s (lists of characters),
the filesystem is an explicit predicate `String → Bool`, the conversion map
is an association list mirroring a Python dict with unique keys, and code
that can raise is modelled with `Except`.  The embedded functions follow the
CPython 3.11 semantics of the library calls the source relies on
(`urllib.parse.urlparse`, `urllib.parse.unquote`, `os.path.splitext`,
`str.replace`, `re.sub` with the concrete patterns appearing in the source).
-/

deriving instance DecidableEq for Except

namespace GhostWebp

/-! ## Basic character utilities (Python semantics) -/

/-- ASCII decimal digit test, as used by the regex class `\d`. -/
def isDig (c : Char) : Bool := 48 ≤ c.toNat && c.toNat ≤ 57

/-- ASCII alphabetic test (`str.isalpha` restricted to ASCII, which is all
`urlsplit` needs after its `isascii` guard). -/
def isAsciiAlpha (c : Char) : Bool :=
  (97 ≤ c.toNat && c.toNat ≤ 122) || (65 ≤ c.toNat && c.toNat ≤ 90)

/-- Word character test for the regex class `\w` (ASCII portion). -/
def isWordChar (c : Char) : Bool := isAsciiAlpha c || isDig c || c = '_'

/-- Characters accepted inside a URL scheme by `urllib.parse`
(`scheme_chars = letters + digits + "+-."`). -/
def isSchemeChar (c : Char) : Bool :=
  isAsciiAlpha c || isDig c || c = '+' || c = '-' || c = '.'

/-- ASCII lower-casing, the fragment of `str.lower` the source exercises. -/
def lowerChar (c : Char) : Char :=
  if 'A' ≤ c && c ≤ 'Z' then Char.ofNat (c.toNat + 32) else c

def lowerChars (l : List Char) : List Char := l.map lowerChar

/-- Python whitespace for `str.strip()` (ASCII portion). -/
def isPySpace (c : Char) : Bool :=
  c = ' ' || c = '\t' || c = '\n' || c = '\r' || c = '\x0b' || c = '\x0c'

def lstripWs (l : List Char) : List Char := l.dropWhile isPySpace

def rstripWs (l : List Char) : List Char := (l.reverse.dropWhile isPySpace).reverse

/-- `str.strip()` with no argument. -/
def stripWs (l : List Char) : List Char := rstripWs (lstripWs l)

/-- Hexadecimal digit value, used by percent-escape decoding. -/
def hexVal (c : Char) : Option Nat :=
  let n := c.toNat
  if 48 ≤ n && n ≤ 57 then some (n - 48)
  else if 97 ≤ n && n ≤ 102 then some (n - 87)
  else if 65 ≤ n && n ≤ 70 then some (n - 55)
  else none

/-- Does list `p` occur as a leading segment of `l`? -/
def leadsWith : List Char → List Char → Bool
  | [], _ => true
  | _ :: _, [] => false
  | p :: ps, c :: cs => p = c && leadsWith ps cs

/-- Python `str.endswith` on character lists. -/
def endsWithChars (l suffix : List Char) : Bool :=
  leadsWith suffix.reverse l.reverse

/-- Fueled left-to-right non-rescanning substitution scanner: at each
position try the matcher `m` (`some rest` = a match consuming up to `rest`);
on a match emit `repl` and continue at `rest`, otherwise copy one character.
This is the semantics of both `re.sub` and `str.replace`.  Every step
consumes at least one input character for the matchers used here, so fuel
equal to the input length always suffices; the wrapper `subScan` supplies
it. -/
def subScanF (m : List Char → Option (List Char)) (repl : List Char) :
    Nat → List Char → List Char
  | 0, l => l
  | fuel + 1, l =>
    match m l with
    | some r => repl ++ subScanF m repl fuel r
    | none =>
      match l with
      | [] => []
      | c :: t => c :: subScanF m repl fuel t

def subScan (m : List Char → Option (List Char)) (repl l : List Char) : List Char :=
  subScanF m repl l.length l

/-- Literal matcher: `str.replace`'s pattern occurrence test. -/
def matchLitAt (pat l : List Char) : Option (List Char) :=
  if !pat.isEmpty && leadsWith pat l then some (l.drop pat.length) else none

/-- Python `s.replace(pat, repl)` (all non-overlapping occurrences, left to
right).  An empty pattern is never used by the source. -/
def replaceAll (pat repl l : List Char) : List Char := subScan (matchLitAt pat) repl l

/-- Python `s.replace(pat, repl, 1)`: first occurrence only. -/
def replaceOne (pat repl : List Char) : List Char → List Char
  | [] => []
  | c :: cs =>
    if pat ≠ [] && leadsWith pat (c :: cs) then
      repl ++ (c :: cs).drop pat.length
    else
      c :: replaceOne pat repl cs

/-- Python `s.split(sep)` for a one-character separator. -/
def splitOnChar (sep : Char) : List Char → List (List Char)
  | [] => [[]]
  | c :: cs =>
    let rest := splitOnChar sep cs
    if c = sep then [] :: rest
    else
      match rest with
      | [] => [[c]]
      | r :: rs => (c :: r) :: rs

/-- Python `s.rsplit(' ', 1)` restricted to what the source consumes: the
part before the last space and, when a space exists, the part after it. -/
def rsplitSpace (l : List Char) : List Char × Option (List Char) :=
  if ' ' ∈ l then
    let rev := l.reverse
    let after := rev.takeWhile (· ≠ ' ')
    let before := rev.dropWhile (· ≠ ' ')
    ((before.drop 1).reverse, some after.reverse)
  else (l, none)

/-- Python `", ".join(parts)`. -/
def joinCommaSpace (parts : List (List Char)) : List Char :=
  (parts.intersperse [',', ' ']).flatten

/-! ## Percent decoding (`urllib.parse.unquote`, UTF-8 with `replace`) -/

/-- The Unicode replacement character produced by the `replace` error
handler. -/
def fffd : Char := Char.ofNat 0xFFFD

/-- Is `b` a UTF-8 continuation byte? -/
def isCont (b : Nat) : Bool := 0x80 ≤ b && b ≤ 0xBF

/-- Decode a byte sequence as UTF-8 with the `replace` error handler,
following CPython's decoder (one replacement character per maximal invalid
subpart). -/
def utf8Replace : List Nat → List Char
  | [] => []
  | b :: rest =>
    if b < 0x80 then Char.ofNat b :: utf8Replace rest
    else if 0xC2 ≤ b && b ≤ 0xDF then
      match rest with
      | [] => [fffd]
      | b1 :: rest1 =>
        if isCont b1 then Char.ofNat ((b - 0xC0) * 64 + (b1 - 0x80)) :: utf8Replace rest1
        else fffd :: utf8Replace (b1 :: rest1)
    else if 0xE0 ≤ b && b ≤ 0xEF then
      let cont1ok : Nat → Bool := fun b1 =>
        if b = 0xE0 then 0xA0 ≤ b1 && b1 ≤ 0xBF
        else if b = 0xED then 0x80 ≤ b1 && b1 ≤ 0x9F
        else isCont b1
      match rest with
      | [] => [fffd]
      | b1 :: rest1 =>
        if cont1ok b1 then
          match rest1 with
          | [] => [fffd]
          | b2 :: rest2 =>
            if isCont b2 then
              Char.ofNat ((b - 0xE0) * 4096 + (b1 - 0x80) * 64 + (b2 - 0x80)) :: utf8Replace rest2
            else fffd :: utf8Replace (b2 :: rest2)
        else fffd :: utf8Replace (b1 :: rest1)
    else if 0xF0 ≤ b && b ≤ 0xF4 then
      let cont1ok : Nat → Bool := fun b1 =>
        if b = 0xF0 then 0x90 ≤ b1 && b1 ≤ 0xBF
        else if b = 0xF4 then 0x80 ≤ b1 && b1 ≤ 0x8F
        else isCont b1
      match rest with
      | [] => [fffd]
      | b1 :: rest1 =>
        if cont1ok b1 then
          match rest1 with
          | [] => [fffd]
          | b2 :: rest2 =>
            if isCont b2 then
              match rest2 with
              | [] => [fffd]
              | b3 :: rest3 =>
                if isCont b3 then
                  Char.ofNat ((b - 0xF0) * 262144 + (b1 - 0x80) * 4096 +
                    (b2 - 0x80) * 64 + (b3 - 0x80)) :: utf8Replace rest3
                else fffd :: utf8Replace (b3 :: rest3)
            else fffd :: utf8Replace (b2 :: rest2)
        else fffd :: utf8Replace (b1 :: rest1)
    else fffd :: utf8Replace rest

/-- Collect a maximal run of valid percent escapes into bytes, returning the
decoded bytes and the unconsumed remainder (`urllib.parse.unquote_to_bytes`
applied to the escape portion). -/
def escRun : List Char → List Nat × List Char
  | '%' :: h1 :: h2 :: rest =>
    match hexVal h1, hexVal h2 with
    | some a, some b =>
      let r := escRun rest
      ((16 * a + b) :: r.1, r.2)
    | _, _ => ([], '%' :: h1 :: h2 :: rest)
  | l => ([], l)

/-- Fueled scanner implementing `urllib.parse.unquote` (UTF-8, `replace`):
plain characters pass through, maximal runs of percent escapes are decoded
as UTF-8 byte sequences.  `fuel` is chosen as the input length by the
wrapper, which always suffices because every step consumes a character. -/
def unquoteF : Nat → List Char → List Char
  | 0, l => l
  | _ + 1, [] => []
  | fuel + 1, c :: cs =>
    if c = '%' then
      match escRun (c :: cs) with
      | ([], _) => c :: unquoteF fuel cs
      | (bs, rem) => utf8Replace bs ++ unquoteF fuel rem
    else c :: unquoteF fuel cs

def unquoteChars (l : List Char) : List Char := unquoteF l.length l

/-- `urllib.parse.unquote` on strings. -/
def pyUnquote (s : String) : String := ⟨unquoteChars s.data⟩

/-! ## URL parsing (`urllib.parse.urlparse` / `urlunparse`, CPython 3.11)

`none` models the `ValueError` raised for a netloc with unbalanced square
brackets ("Invalid IPv6 URL").  A balanced bracketed host is accepted
without further validation; the source never produces bracketed hosts. -/

structure UrlParts where
  scheme : List Char
  netloc : List Char
  path : List Char
  params : List Char
  query : List Char
  fragment : List Char
deriving DecidableEq

/-- Leading WHATWG C0-control-or-space strip done by `urlsplit`. -/
def lstripCtl (l : List Char) : List Char := l.dropWhile (fun c => c.toNat ≤ 0x20)

/-- Removal of the unsafe bytes tab, CR and LF done by `urlsplit`. -/
def dropTabCrLf (l : List Char) : List Char :=
  l.filter (fun c => c ≠ '\t' && c ≠ '\r' && c ≠ '\n')

/-- Split `l` at the first occurrence of `sep`, dropping the separator. -/
def splitAtFirst (sep : Char) (l : List Char) : Option (List Char × List Char) :=
  if sep ∈ l then some (l.takeWhile (· ≠ sep), (l.dropWhile (· ≠ sep)).drop 1) else none

/-- Scheme extraction step of `urlsplit`. -/
def schemeSplit (l : List Char) : List Char × List Char :=
  let before := l.takeWhile (· ≠ ':')
  let headOk : Bool :=
    match l with
    | c :: _ => c.toNat ≤ 0x7F && isAsciiAlpha c
    | [] => false
  if (':' ∈ l) && !before.isEmpty && headOk && before.all isSchemeChar then
    (lowerChars before, (l.dropWhile (· ≠ ':')).drop 1)
  else ([], l)

/-- Netloc extraction step of `urlsplit`; `none` models the `ValueError`
for unbalanced brackets. -/
def netlocSplit (l : List Char) : Option (List Char × List Char) :=
  if leadsWith ['/', '/'] l then
    let rest := l.drop 2
    let netloc := rest.takeWhile (fun c => c ≠ '/' && c ≠ '?' && c ≠ '#')
    let tail := rest.dropWhile (fun c => c ≠ '/' && c ≠ '?' && c ≠ '#')
    if (('[' ∈ netloc) && (']' ∉ netloc)) || ((']' ∈ netloc) && ('[' ∉ netloc)) then
      none
    else some (netloc, tail)
  else some ([], l)

/-- Schemes for which `urlparse` splits `;params` from the path
(`urllib.parse.uses_params`; the empty scheme is a member). -/
def usesParams (s : List Char) : Bool :=
  [[], "ftp".data, "hdl".data, "prospero".data, "http".data, "imap".data,
   "https".data, "shttp".data, "rtsp".data, "rtspu".data, "sip".data,
   "sips".data, "mms".data, "sftp".data, "tel".data].contains s

/-- Schemes treated as having a network location by `urlunsplit`
(`urllib.parse.uses_netloc`; the empty scheme is a member). -/
def usesNetloc (s : List Char) : Bool :=
  [[], "ftp".data, "http".data, "gopher".data, "nntp".data, "telnet".data,
   "imap".data, "wais".data, "file".data, "mms".data, "https".data,
   "shttp".data, "snews".data, "prospero".data, "rtsp".data, "rtspu".data,
   "rsync".data, "svn".data, "svn+ssh".data, "sftp".data, "nfs".data,
   "git".data, "git+ssh".data, "ws".data, "wss".data].contains s

/-- Index of the first occurrence of `sep` in `l` at or after position
`start` (Python `str.find(sep, start)`), or `none`. -/
def findFrom (sep : Char) (l : List Char) (start : Nat) : Option Nat :=
  if sep ∈ l.drop start then some (start + ((l.drop start).takeWhile (· ≠ sep)).length)
  else none

/-- Index of the last occurrence of `sep` (Python `str.rfind`), or `none`. -/
def rfindIdx (sep : Char) (l : List Char) : Option Nat :=
  if sep ∈ l then some (l.length - 1 - (l.reverse.takeWhile (· ≠ sep)).length)
  else none

/-- `urllib.parse._splitparams`. -/
def splitParams (url : List Char) : List Char × List Char :=
  if '/' ∈ url then
    match rfindIdx '/' url with
    | some j =>
      match findFrom ';' url j with
      | some i => (url.take i, url.drop (i + 1))
      | none => (url, [])
    | none => (url, [])
  else
    match findFrom ';' url 0 with
    | some i => (url.take i, url.drop (i + 1))
    | none => (url, [])

/-- Fragment split step of `urlsplit`. -/
def fragSplitStep (l : List Char) : List Char × List Char :=
  match splitAtFirst '#' l with
  | some ab => ab
  | none => (l, [])

/-- Query split step of `urlsplit`. -/
def querySplitStep (l : List Char) : List Char × List Char :=
  match splitAtFirst '?' l with
  | some ab => ab
  | none => (l, [])

/-- Params split step of `urlparse`. -/
def paramsSplitStep (scheme l : List Char) : List Char × List Char :=
  if usesParams scheme && (';' ∈ l) then splitParams l else (l, [])

/-- The stages of `urlparse` after scheme and netloc extraction. -/
def urlparseCore (scheme : List Char) : Option (List Char × List Char) → Option UrlParts
  | none => none
  | some (netloc, l2) =>
    some ⟨scheme, netloc,
      (paramsSplitStep scheme (querySplitStep (fragSplitStep l2).1).1).1,
      (paramsSplitStep scheme (querySplitStep (fragSplitStep l2).1).1).2,
      (querySplitStep (fragSplitStep l2).1).2,
      (fragSplitStep l2).2⟩

/-- `urllib.parse.urlparse` on character lists; `none` models the raised
`ValueError`. -/
def urlparseM (input : List Char) : Option UrlParts :=
  urlparseCore (schemeSplit (dropTabCrLf (lstripCtl input))).1
    (netlocSplit (schemeSplit (dropTabCrLf (lstripCtl input))).2)

/-- `urllib.parse.urlunparse`. -/
def urlunparseM (r : UrlParts) : List Char :=
  let url := if !r.params.isEmpty then r.path ++ ';' :: r.params else r.path
  let url :=
    if !r.netloc.isEmpty ||
       (!r.scheme.isEmpty && usesNetloc r.scheme && !leadsWith ['/', '/'] url) then
      let url' := if !url.isEmpty && !leadsWith ['/'] url then '/' :: url else url
      '/' :: '/' :: (r.netloc ++ url')
    else url
  let url := if !r.scheme.isEmpty then r.scheme ++ ':' :: url else url
  let url := if !r.query.isEmpty then url ++ '?' :: r.query else url
  if !r.fragment.isEmpty then url ++ '#' :: r.fragment else url

/-! ## Path helpers (`posixpath`) -/

/-- Characters after the last slash (the whole list when there is none). -/
def afterLastSlash (p : List Char) : List Char :=
  (p.reverse.takeWhile (· ≠ '/')).reverse

/-- `os.path.basename`. -/
def basenameChars (p : List Char) : List Char := afterLastSlash p

/-- `os.path.dirname`. -/
def dirnameChars (p : List Char) : List Char :=
  let tail := afterLastSlash p
  let head := p.take (p.length - tail.length)
  if !head.isEmpty && head.any (· ≠ '/') then
    (head.reverse.dropWhile (· = '/')).reverse
  else head

/-- `os.path.splitext` (CPython `posixpath` / `genericpath._splitext`):
split at the last dot of the final component, unless every character of the
component before that dot is itself a dot. -/
def splitextChars (p : List Char) : List Char × List Char :=
  let base := afterLastSlash p
  let pre := p.take (p.length - base.length)
  if '.' ∈ base then
    let tailFromDot := base.reverse.takeWhile (· ≠ '.')
    let dotPos := base.length - 1 - tailFromDot.length
    if (base.take dotPos).any (· ≠ '.') then
      (pre ++ base.take dotPos, base.drop dotPos)
    else (p, [])
  else (p, [])

/-- Two-argument `os.path.join` (posix). -/
def joinChars (a b : List Char) : List Char :=
  if leadsWith ['/'] b then b
  else if a.isEmpty || a.getLast? = some '/' then a ++ b
  else a ++ '/' :: b

/-- Path components after lexical normalisation of an absolute path
(the `normpath` step inside `os.path.abspath`). -/
def normComps (p : List Char) : List (List Char) :=
  (splitOnChar '/' p).foldl
    (fun acc comp =>
      if comp = [] || comp = ['.'] then acc
      else if comp = ['.', '.'] then acc.dropLast
      else acc ++ [comp]) []

def commonPrefixLen : List (List Char) → List (List Char) → Nat
  | a :: as, b :: bs => if a = b then 1 + commonPrefixLen as bs else 0
  | _, _ => 0

/-- `os.path.relpath` for absolute inputs (the only way the source calls
it: both arguments are absolute filesystem paths). -/
def relpathChars (p start : List Char) : List Char :=
  let pl := normComps p
  let sl := normComps start
  let i := commonPrefixLen pl sl
  let rel := List.replicate (sl.length - i) ['.', '.'] ++ pl.drop i
  if rel.isEmpty then ['.']
  else (rel.intersperse ['/']).flatten

/-- Python `s.rstrip('/')`. -/
def rstripSlash (l : List Char) : List Char := (l.reverse.dropWhile (· = '/')).reverse

/-! ## Regex substitutions used by the source

Each Python `re.sub(pattern, repl, s)` call site uses one concrete
pattern; each is embedded as a matcher (`some rest` = the pattern matches
at the head, returning the unconsumed remainder) driven by a left-to-right
non-rescanning scanner, which is exactly `re.sub`'s semantics. -/

/-- Matcher for `/size/w\d+/?` (file_handler `_normalize_path`): the
literal `/size/w`, one or more digits, and an optional trailing slash. -/
def matchSizeAt (l : List Char) : Option (List Char) :=
  if leadsWith "/size/w".data l then
    if (((l.drop 7).takeWhile isDig)).isEmpty then none
    else
      some (if leadsWith ['/'] ((l.drop 7).dropWhile isDig)
            then ((l.drop 7).dropWhile isDig).drop 1
            else (l.drop 7).dropWhile isDig)
  else none

/-- Matcher for `/format/webp/?` (file_handler `_normalize_path`). -/
def matchFormatAt (l : List Char) : Option (List Char) :=
  if leadsWith "/format/webp".data l then
    some (if leadsWith ['/'] (l.drop 12) then (l.drop 12).drop 1 else l.drop 12)
  else none

/-- Matcher for `/size/w\d+` (cleanup `find_unused_images`). -/
def matchSizeBareAt (l : List Char) : Option (List Char) :=
  if leadsWith "/size/w".data l then
    if ((l.drop 7).takeWhile isDig).isEmpty then none
    else some ((l.drop 7).dropWhile isDig)
  else none

/-- Matcher for `/format/\w+` (cleanup `find_unused_images`). -/
def matchFormatWordAt (l : List Char) : Option (List Char) :=
  if leadsWith "/format/".data l then
    if ((l.drop 8).takeWhile isWordChar).isEmpty then none
    else some ((l.drop 8).dropWhile isWordChar)
  else none

/-- Matcher for `/size/w\d+/` (reorganize `analyze_reorganization`): the
trailing slash is mandatory and is consumed. -/
def matchSizeSlashAt (l : List Char) : Option (List Char) :=
  if leadsWith "/size/w".data l then
    if ((l.drop 7).takeWhile isDig).isEmpty then none
    else
      if leadsWith ['/'] ((l.drop 7).dropWhile isDig)
      then some (((l.drop 7).dropWhile isDig).drop 1)
      else none
  else none

/-- `re.sub(r'/size/w\d+/?', '/', s)` then `re.sub(r'/format/webp/?', '/', s)`
then `s.replace('//', '/')`: file_handler `_normalize_path`. -/
def normalizePathChars (l : List Char) : List Char :=
  replaceAll ['/', '/'] ['/'] (subScan matchFormatAt ['/'] (subScan matchSizeAt ['/'] l))

def pyNormalizePath (s : String) : String := ⟨normalizePathChars s.data⟩

/-- `format_regex.sub('', size_regex.sub('', p))` with cleanup's bare
patterns (cleanup `find_unused_images`). -/
def cleanupBase (l : List Char) : List Char :=
  subScan matchFormatWordAt [] (subScan matchSizeBareAt [] l)

/-- `size_regex.sub('/', p).replace('//', '/')` with reorganize's pattern. -/
def reorgBase (l : List Char) : List Char :=
  replaceAll ['/', '/'] ['/'] (subScan matchSizeSlashAt ['/'] l)

/-- `re.match(r'(/content/images/size/w\d+/)', p)`: the captured group, or
`none` when the path does not start with a size segment. -/
def sizeSegMatch (l : List Char) : Option (List Char) :=
  if leadsWith "/content/images/size/w".data l then
    if !((l.drop 22).takeWhile isDig).isEmpty &&
        leadsWith ['/'] ((l.drop 22).dropWhile isDig) then
      some ("/content/images/size/w".data ++ ((l.drop 22).takeWhile isDig) ++ ['/'])
    else none
  else none

/-! ## Conversion map (a Python dict from strings to strings) -/

abbrev ConvMap := List (String × String)

/-- Dict lookup; keys are unique by construction of every map the source
builds, so first-match lookup is dict lookup. -/
def lookupMap (m : ConvMap) (k : String) : Option String :=
  match m.find? (fun e => e.1 == k) with
  | some e => some e.2
  | none => none

/-- Dict insertion: overwrite an existing key in place, else append. -/
def dictInsert (m : ConvMap) (k v : String) : ConvMap :=
  if m.any (fun e => e.1 == k) then
    m.map (fun e => if e.1 == k then (k, v) else e)
  else m ++ [(k, v)]

/-- The image extensions recognised by the source (the tuple appears in
`find_images` and again in `_process_url`). -/
def imageExts : List String := [".png", ".jpg", ".jpeg", ".gif", ".bmp", ".tiff"]

/-! ## `_process_url` (file_handler.py, lines 20-81)

The function can raise `ValueError`: the `urlparse` calls at lines 58 and
69/71 are outside the `try` block that protects the one at line 37.  A
raised exception is the `.error ()` value; the caught `ValueError` at line
39-40 instead produces the early return of the decoded URL. -/

/-- Lookup phase of `_process_url` (lines 31-54): direct hit, then
normalised-path hit, then the `.webp`-to-original-extension fallback.
`.error s` is the early `return original_url` taken when the guarded
`urlparse` raises. -/
def lookupPhase (original : List Char) (m : ConvMap) : Except (List Char) (Option String) :=
  match lookupMap m ⟨original⟩ with
  | some v => .ok (some v)
  | none =>
    match urlparseM original with
    | none => .error original
    | some pu =>
      let pl := normalizePathChars pu.path
      match lookupMap m ⟨pl⟩ with
      | some v => .ok (some v)
      | none =>
        let be := splitextChars pl
        if (⟨lowerChars be.2⟩ : String) = ".webp" then
          match imageExts.find? (fun e => (lookupMap m ⟨be.1 ++ e.data⟩).isSome) with
          | some e => .ok (lookupMap m ⟨be.1 ++ e.data⟩)
          | none => .ok none
        else .ok none

/-- `_process_url`: `.error ()` models an uncaught `ValueError`. -/
def processUrl (url : String) (m : ConvMap) : Except Unit String :=
  if url = "" then .ok url
  else
    let original : List Char := unquoteChars url.data
    match lookupPhase original m with
    | .error s => .ok ⟨s⟩
    | .ok none => .ok ⟨original⟩
    | .ok (some nv) =>
      if nv = "" then .ok ⟨original⟩
      else
        match urlparseM original with
        | none => .error ()
        | some po =>
          match sizeSegMatch po.path with
          | none => .ok nv
          | some pfx =>
            match urlparseM nv.data with
            | none => .error ()
            | some pn =>
              if !pn.scheme.isEmpty then
                .ok ⟨urlunparseM { pn with path := replaceOne "/content/images/".data pfx pn.path }⟩
              else
                .ok ⟨urlunparseM { po with path := replaceOne "/content/images/".data pfx nv.data }⟩

/-! ## `_process_image_url` (db_handler.py, lines 99-143) -/

def processImageUrl (url : String) (m : ConvMap) : String :=
  if url = "" then url
  else
    let hasGhost := leadsWith "__GHOST_URL__".data url.data
    let u : List Char :=
      if hasGhost then replaceOne "__GHOST_URL__".data [] url.data else url.data
    let gpfx : List Char := if hasGhost then "__GHOST_URL__".data else []
    match sizeSegMatch u with
    | some pfx =>
      let keyL := replaceOne pfx "/content/images/".data u
      match lookupMap m ⟨keyL⟩ with
      | some nv => ⟨gpfx ++ replaceOne "/content/images/".data pfx nv.data⟩
      | none => url
    | none =>
      match lookupMap m ⟨u⟩ with
      | some nv => ⟨gpfx ++ nv.data⟩
      | none => url

/-! ## srcset rewriting (api_handler.py 167-185, db_handler.py 193-214) -/

/-- Split a srcset value into its stripped, non-empty comma entries. -/
def srcsetEntries (ss : String) : List (List Char) :=
  (splitOnChar ',' ss.data).filterMap
    (fun p => let q := stripWs p; if q.isEmpty then none else some q)

/-- Render one rewritten entry: `f"{new_url} {descriptor}" if descriptor
else new_url`. -/
def renderEntry (nu : String) (d : Option (List Char)) : List Char :=
  match d with
  | some dd => if !dd.isEmpty then nu.data ++ ' ' :: dd else nu.data
  | none => nu.data

/-- The api_handler srcset loop: split on commas, split each entry at the
last space, rewrite the url through `_process_url`, rejoin with `", "`. -/
def rewriteSrcsetApi (m : ConvMap) (ss : String) : Except Unit String := do
  let rendered ← (srcsetEntries ss).mapM (fun p => do
    let ud := rsplitSpace p
    let nu ← processUrl ⟨ud.1⟩ m
    pure (renderEntry nu ud.2))
  pure ⟨joinCommaSpace rendered⟩

/-- The db_handler srcset loop, identical except the url rewriter is
`_process_image_url` (which never raises). -/
def rewriteSrcsetDb (m : ConvMap) (ss : String) : String :=
  ⟨joinCommaSpace ((srcsetEntries ss).map (fun p =>
    let ud := rsplitSpace p
    renderEntry (processImageUrl ⟨ud.1⟩ m) ud.2))⟩

/-- A structured srcset entry: the url component and an optional
descriptor, rendered as `url` or `url descriptor`. -/
def entryChars (e : List Char × Option (List Char)) : List Char :=
  match e.2 with
  | some d => e.1 ++ ' ' :: d
  | none => e.1

/-- Well-formedness of a structured srcset entry: non-empty url, and url
and descriptor free of commas and whitespace. -/
def wfEntry (e : List Char × Option (List Char)) : Prop :=
  e.1 ≠ [] ∧ (∀ c ∈ e.1, isPySpace c = false ∧ c ≠ ',') ∧
    ∀ d, e.2 = some d → d ≠ [] ∧ ∀ c ∈ d, isPySpace c = false ∧ c ≠ ','

/-! ## Content item rewriting (api_handler.py `update_image_links_via_api`)

A content item is embedded structurally: the media tags of its parsed HTML
body in document order (name, `src`, `srcset`, and the `src` attributes of
nested `source` children) plus the flat `feature_image` field. -/

structure MediaTag where
  name : String
  src : Option String
  srcset : Option String
  sources : List String
deriving DecidableEq

structure ContentItem where
  featureImage : Option String
  tags : List MediaTag
deriving DecidableEq

/-- Rewrite one tag: `src`, then `srcset` (img tags only), then nested
`source` children; the Bool records whether any attribute differed. -/
def rewriteTag (m : ConvMap) (t : MediaTag) : Except Unit (MediaTag × Bool) := do
  let srcR ←
    match t.src with
    | some s => do
      let ns ← processUrl s m
      pure (some ns, ns != s)
    | none => pure (none, false)
  let ssR ←
    match t.srcset with
    | some ss =>
      if t.name = "img" then do
        let ns ← rewriteSrcsetApi m ss
        pure (some ns, ns != ss)
      else pure (some ss, false)
    | none => pure ((none : Option String), false)
  let srcs ← t.sources.mapM (fun s => processUrl s m)
  let c3 := srcs != t.sources
  pure ({ t with src := srcR.1, srcset := ssR.1, sources := srcs },
    srcR.2 || ssR.2 || c3)

/-- Rewrite a whole item; `changed` is true iff some attribute or the
feature image differed, and an unchanged item is returned as-is. -/
def rewriteItemApi (m : ConvMap) (it : ContentItem) : Except Unit (ContentItem × Bool) := do
  let pairs ← it.tags.mapM (rewriteTag m)
  let featR ←
    match it.featureImage with
    | some f => do
      let nf ← processUrl f m
      pure (some nf, nf != f)
    | none => pure ((none : Option String), false)
  let changed := pairs.any (fun p => p.2) || featR.2
  if changed then pure ({ featureImage := featR.1, tags := pairs.map (fun p => p.1) }, true)
  else pure (it, false)

/-! ## `_convert_worker` and `convert_images_to_webp` (file_handler.py)

The filesystem is a predicate `fs : String → Bool` (`os.path.exists`); the
physical WebP encoding itself is an external effect that the worker's
result does not depend on, so only the naming logic is embedded. -/

inductive ConvOutcome where
  | success (origPath newPath urlOld urlNew : String)
  | skipped (path reason : String)
  | error (path msg : String)
deriving DecidableEq

/-- The `while os.path.exists(output_path)` disambiguation loop.  The
candidate for the current `counter` is built, then the counter is
incremented and compared against 100 (raising without re-testing
existence), then existence of the candidate decides the loop.  Fuel 100 is
supplied by the caller; the counter guard always fires first. -/
def uniqueLoop (fs : String → Bool) (dir base : List Char) :
    Nat → Nat → Except Unit (List Char)
  | _, 0 => .error ()
  | counter, fuel + 1 =>
    let cand := joinChars dir (base ++ '_' :: Nat.toDigits 10 counter ++ ".webp".data)
    if counter + 1 > 100 then .error ()
    else if fs ⟨cand⟩ then uniqueLoop fs dir base (counter + 1) fuel
    else .ok cand

/-- `_convert_worker` (file_handler.py, lines 204-264). -/
def convertWorker (fs : String → Bool) (imagesPath : String)
    (dups : List (String × List String)) (imagePath : String) : ConvOutcome :=
  let ext := (splitextChars imagePath.data).2
  if ext.isEmpty || (⟨lowerChars ext⟩ : String) = ".ico" then
    .skipped imagePath "File has no extension or is an icon file."
  else
    let bn := basenameChars imagePath.data
    let ob := (splitextChars bn).1
    let oext := (splitextChars bn).2
    let outDir := dirnameChars imagePath.data
    let isDup := dups.any (fun g => g.2.contains imagePath)
    let hasO := endsWithChars (lowerChars ob) "_o".data
    let b1 := if hasO then ob.dropLast.dropLast else ob
    let b2 := if isDup then b1 ++ replaceAll ['.'] ['_'] oext else b1
    let fb := if hasO then b2 ++ "_o".data else b2
    let out0 := joinChars outDir (fb ++ ".webp".data)
    let outE : Except Unit (List Char) :=
      if fs ⟨out0⟩ then uniqueLoop fs outDir fb 1 100 else .ok out0
    match outE with
    | .error _ =>
      .error imagePath
        ("Could not find a unique filename for " ++ imagePath ++ " after 100 attempts.")
    | .ok outPath =>
      .success imagePath ⟨outPath⟩
        ⟨joinChars "/content/images".data (relpathChars imagePath.data imagesPath.data)⟩
        ⟨joinChars "/content/images".data (relpathChars outPath imagesPath.data)⟩

/-- The parallel pool: one isolated result per task, in task order. -/
def convertBatch (fs : String → Bool) (imagesPath : String)
    (dups : List (String × List String)) (tasks : List String) : List ConvOutcome :=
  tasks.map (convertWorker fs imagesPath dups)

/-- Map construction of `convert_images_to_webp` (lines 284-300): three
entries per successful conversion — filesystem path, `/content/images`
relative URL path, and absolute URL. -/
def buildConvMap (apiBase : String) (results : List ConvOutcome) : ConvMap :=
  results.foldl
    (fun m r =>
      match r with
      | .success o n uo un =>
        dictInsert (dictInsert (dictInsert m o n) uo un) (apiBase ++ uo) (apiBase ++ un)
      | _ => m) []

/-- `convert_images_to_webp` end to end (`ghost_api_url.rstrip('/')` plus
the batch and the map build). -/
def convertImages (fs : String → Bool) (ghostApiUrl imagesPath : String)
    (dups : List (String × List String)) (tasks : List String) : ConvMap :=
  buildConvMap ⟨rstripSlash ghostApiUrl.data⟩ (convertBatch fs imagesPath dups tasks)

def successCount (results : List ConvOutcome) : Nat :=
  (results.filter (fun r => match r with | .success _ _ _ _ => true | _ => false)).length

/-- The keys the map build inserts, in insertion order. -/
def convKeys (apiBase : String) (results : List ConvOutcome) : List String :=
  results.flatMap
    (fun r =>
      match r with
      | .success o _ uo _ => [o, uo, apiBase ++ uo]
      | _ => [])

/-! ## `find_unused_images` membership check (cleanup.py, lines 162-180) -/

/-- Is the on-disk file with db-style path `dbPath` used, given the set of
base used paths?  Exact match on the size/format-stripped path first; only
on failure, and only for a filename whose stem ends in `_o`, the
`_o`-stripped variant is tried. -/
def isUsedImage (baseUsed : List String) (dbPath : String) : Bool :=
  let basePhys := cleanupBase dbPath.data
  if baseUsed.contains (⟨basePhys⟩ : String) then true
  else
    let fname := afterLastSlash basePhys
    let dirPart := dirnameChars basePhys
    let stem := (splitextChars fname).1
    let ext := (splitextChars fname).2
    if endsWithChars (lowerChars stem) "_o".data then
      baseUsed.contains
        (⟨replaceAll ['\\'] ['/'] (joinChars dirPart (stem.dropLast.dropLast ++ ext))⟩ : String)
    else false

/-- Normalisation applied to each used path before membership testing
(`path.strip()` then the bare size/format substitutions). -/
def usedBasePath (p : String) : String := ⟨cleanupBase (stripWs p.data)⟩

/-! ## reorganize.py: `_reorganize_worker` and `analyze_reorganization` -/

inductive ReorgOutcome where
  | success (dbOld dbNew : String)
  | failure (path msg : String)
deriving DecidableEq

/-- `_reorganize_worker` (lines 31-73).  `os.path.abspath` equality is
modelled as equality of normalised absolute-path components, and a rename
whose source is missing is the `FileNotFoundError` that the worker catches
into an error result.  The deletion of responsive copies (lines 52-64)
swallows its own errors and does not affect the outcome. -/
def reorganizeWorker (fs : String → Bool) (dryRun : Bool)
    (filePath slug newBase basePath contentName : String) : ReorgOutcome :=
  let oext := (splitextChars (basenameChars filePath.data)).2
  let newDir := joinChars basePath.data slug.data
  let newPath := joinChars newDir (newBase.data ++ oext)
  let same := normComps filePath.data == normComps newPath
  if !dryRun && !same && !fs filePath then .failure filePath "FileNotFoundError"
  else
    .success
      ⟨joinChars ("/content/".data ++ contentName.data) (relpathChars filePath.data basePath.data)⟩
      ⟨joinChars ("/content/".data ++ contentName.data) (relpathChars newPath basePath.data)⟩

structure ImgTag where
  src : Option String
  srcset : Option String
deriving DecidableEq

structure Post where
  slug : String
  featureImage : Option String
  imgs : List ImgTag
deriving DecidableEq

/-- Body image reference collection (lines 302-306): `src` first, then the
srcset urls (first space-separated token of each non-empty entry), per tag
in document order. -/
def imgUrlsOf (t : ImgTag) : List String :=
  (match t.src with
   | some s => if s = "" then [] else [s]
   | none => []) ++
  (match t.srcset with
   | some ss =>
     if ss = "" then []
     else (splitOnChar ',' ss.data).filterMap
       (fun p =>
         let q := stripWs p
         if q.isEmpty then none else some (⟨q.takeWhile (· ≠ ' ')⟩ : String))
   | none => [])

/-- Resolution of body references to existing local originals in first-
encounter order with duplicates collapsed (lines 308-319).  An unparsable
URL propagates the `ValueError` `urlparse` would raise. -/
def orderedOriginals (fs : String → Bool) (imagesPath : String)
    (urls : List String) : Except Unit (List String) :=
  urls.foldlM
    (fun acc url => do
      let u := replaceAll "__GHOST_URL__".data [] url.data
      match urlparseM u with
      | none => .error ()
      | some pu =>
        let bp := reorgBase pu.path
        if leadsWith "/content/images/".data bp then
          let fp : String := ⟨joinChars imagesPath.data (bp.drop 16)⟩
          if fs fp && !acc.contains fp then pure (acc ++ [fp]) else pure acc
        else pure acc) []

/-- Content-image planning loop (lines 321-341): for each not-yet-processed
file, the new base name is `{slug}-{counter+1}{suffix}` where `suffix` is
`_o` when the stem ends in `_o`; returns the db-path conversion entries. -/
def planContentImages (slug imagesPath : String) :
    Nat → List String → List String → List (String × String)
  | _, _, [] => []
  | counter, gproc, f :: rest =>
    if gproc.contains f then planContentImages slug imagesPath counter gproc rest
    else
      let bn := basenameChars f.data
      let ob := (splitextChars bn).1
      let oext := (splitextChars bn).2
      let suff : List Char := if endsWithChars (lowerChars ob) "_o".data then "_o".data else []
      let nb := slug.data ++ '-' :: Nat.toDigits 10 (counter + 1) ++ suff
      let newPath := joinChars (joinChars imagesPath.data slug.data) (nb ++ oext)
      (⟨joinChars "/content/images".data (relpathChars f.data imagesPath.data)⟩,
       (⟨joinChars "/content/images".data (relpathChars newPath imagesPath.data)⟩ : String)) ::
        planContentImages slug imagesPath (counter + 1) (gproc ++ [f]) rest

/-- Feature-image planning (lines 272-298): processed before the body
references, named `feature_image{ext}` under the slug folder. -/
def planFeature (fs : String → Bool) (slug imagesPath : String) (gproc : List String)
    (feature : Option String) : Except Unit (Option (String × String) × List String) :=
  match feature with
  | none => pure (none, gproc)
  | some f0 =>
    if f0 = "" then pure (none, gproc)
    else do
      let u := replaceAll "__GHOST_URL__".data [] f0.data
      match urlparseM u with
      | none => .error ()
      | some pu =>
        if leadsWith "/content/images/".data pu.path then
          let fp : String := ⟨joinChars imagesPath.data (pu.path.drop 16)⟩
          if fs fp && !gproc.contains fp then
            let oext := (splitextChars (basenameChars fp.data)).2
            let newPath :=
              joinChars (joinChars imagesPath.data slug.data) ("feature_image".data ++ oext)
            pure (some
              (⟨joinChars "/content/images".data (relpathChars fp.data imagesPath.data)⟩,
               (⟨joinChars "/content/images".data (relpathChars newPath imagesPath.data)⟩ : String)),
              gproc ++ [fp])
          else pure (none, gproc)
        else pure (none, gproc)

/-- The relocate-policy naming formula asserted by the specification for a
body image planned with ordinal `ord`:
`{root}/{slug}/{slug}-{ord}{_o-suffix}{original-extension}`, expressed as
the db-path conversion entry the planner records. -/
def plannedEntry (slug ip : String) (ord : Nat) (f : String) : String × String :=
  (⟨joinChars "/content/images".data (relpathChars f.data ip.data)⟩,
   (⟨joinChars "/content/images".data (relpathChars
     (joinChars (joinChars ip.data slug.data)
       (slug.data ++ '-' :: Nat.toDigits 10 ord ++
         (if endsWithChars (lowerChars (splitextChars (basenameChars f.data)).1) "_o".data
          then "_o".data else []) ++
         (splitextChars (basenameChars f.data)).2)) ip.data)⟩ : String))

/-- The image-planning portion of `analyze_reorganization` for one post:
feature image first (registering it as globally processed), then the body
images in first-encounter order. -/
def analyzePostPlan (fs : String → Bool) (imagesPath : String) (gproc : List String)
    (p : Post) : Except Unit (List (String × String)) := do
  let featR ← planFeature fs p.slug imagesPath gproc p.featureImage
  let ordered ← orderedOriginals fs imagesPath (p.imgs.flatMap imgUrlsOf)
  pure (featR.1.toList ++ planContentImages p.slug imagesPath 0 featR.2 ordered)

/-- The canonical Identity of a Variant: percent-decode, parse, strip the
size and format segments (`_normalize_path` applied to the parsed path, as
`_process_url` does); `none` when parsing raises. -/
def canonicalize (v : String) : Option String :=
  (urlparseM (unquoteChars v.data)).map (fun pu => (⟨normalizePathChars pu.path⟩ : String))

/-- Reconstruction of a Variant from a new Identity and the original
Variant as template: lines 56-78 of `_process_url` (re-inject the
template's size segment, keep its scheme and host).  `_process_url` invokes
this with the percent-decoded URL as template. -/
def reconstruct (newVal tmpl : String) : Except Unit String :=
  match urlparseM tmpl.data with
  | none => .error ()
  | some po =>
    match sizeSegMatch po.path with
    | none => .ok newVal
    | some pfx =>
      match urlparseM newVal.data with
      | none => .error ()
      | some pn =>
        if !pn.scheme.isEmpty then
          .ok ⟨urlunparseM { pn with path := replaceOne "/content/images/".data pfx pn.path }⟩
        else
          .ok ⟨urlunparseM { po with path := replaceOne "/content/images/".data pfx newVal.data }⟩

/-- The composite the spec's idempotence property is about. -/
def canonReconCanon (v : String) : Option String :=
  match canonicalize v with
  | none => none
  | some id0 =>
    match reconstruct id0 v with
    | .error _ => none
    | .ok w => canonicalize w

/-! ## Scanner and parser lemmas -/

/-- A matcher that always consumes at least one character. -/
def Consumes (m : List Char → Option (List Char)) : Prop :=
  ∀ l r, m l = some r → r.length < l.length

/-- Does the matcher fire at any position of `l`? -/
def containsPat (m : List Char → Option (List Char)) : List Char → Bool
  | [] => (m []).isSome
  | c :: t => (m (c :: t)).isSome || containsPat m t

/-- Characters that take no part in URL splitting: no tab/CR/LF removal, no
fragment, query or params separator.  A path made of these characters (plus
slashes and digits, which qualify) passes through `urlparse` untouched. -/
def plainUrlChar (c : Char) : Bool :=
  !(c = '\t' || c = '\r' || c = '\n' || c = '#' || c = '?' || c = ';')

/-- Well-formedness of the name part of a variant: plain URL characters,
no percent escape, and no size, format or double-slash segment anywhere in
`/name` (so canonicalization leaves it untouched). -/
def cleanSeg (tail : List Char) : Prop :=
  (∀ c ∈ tail, plainUrlChar c = true) ∧ '%' ∉ tail ∧
  containsPat matchSizeAt ('/' :: tail) = false ∧
  containsPat matchFormatAt ('/' :: tail) = false ∧
  containsPat (matchLitAt ['/', '/']) ('/' :: tail) = false

/-! ## Conversion-map shape (convert_images_to_webp) -/

/-- The three entries recorded per successful conversion, in insertion
order. -/
def convTriples (apiBase : String) (results : List ConvOutcome) : ConvMap :=
  results.flatMap (fun r =>
    match r with
    | .success o n uo un => [(o, n), (uo, un), (apiBase ++ uo, apiBase ++ un)]
    | _ => [])

theorem leadsWith_append (p rest : List Char) : leadsWith p (p ++ rest) = true := by
  induction p with
  | nil => rfl
  | cons c cs ih => simp [leadsWith, ih]

theorem leadsWith_iff (p l : List Char) :
    leadsWith p l = true ↔ ∃ rest, l = p ++ rest := by
  induction p generalizing l with
  | nil => simp [leadsWith]
  | cons c cs ih =>
    cases l with
    | nil => simp [leadsWith]
    | cons d ds =>
      simp only [leadsWith, Bool.and_eq_true, decide_eq_true_eq, ih]
      constructor
      · rintro ⟨rfl, rest, rfl⟩; exact ⟨rest, rfl⟩
      · rintro ⟨rest, h⟩
        cases h
        exact ⟨rfl, rest, rfl⟩

theorem escRun_rem_le (l : List Char) : (escRun l).2.length ≤ l.length := by
  induction l using escRun.induct with
  | case1 h1 h2 rest a b hv1 hv2 ih =>
    simp only [escRun, hv1, hv2, List.length_cons]
    omega
  | case2 h1 h2 rest hv =>
    simp [escRun]
  | case3 l h =>
    simp [escRun]

theorem length_dropWhile_le (p : Char → Bool) (l : List Char) :
    (l.dropWhile p).length ≤ l.length := by
  induction l with
  | nil => simp
  | cons c t ih =>
    rw [List.dropWhile_cons]
    split
    · simp
      omega
    · simp

theorem subScanF_suff {m : List Char → Option (List Char)} {repl : List Char}
    (hm : Consumes m) :
    ∀ (n : Nat) (l : List Char), l.length ≤ n → ∀ fuel, l.length ≤ fuel →
      subScanF m repl fuel l = subScan m repl l := by
  intro n
  induction n with
  | zero =>
    intro l hl fuel _
    have : l = [] := List.length_eq_zero.mp (Nat.le_zero.mp hl)
    subst this
    cases fuel with
    | zero => rfl
    | succ f =>
      show subScanF m repl (f + 1) [] = subScanF m repl 0 []
      simp only [subScanF]
      cases hml : m [] with
      | some r => exact absurd (hm _ _ hml) (by simp)
      | none => rfl
  | succ n ih =>
    intro l hl fuel hfuel
    cases l with
    | nil =>
      cases fuel with
      | zero => rfl
      | succ f =>
        show subScanF m repl (f + 1) [] = subScanF m repl 0 []
        simp only [subScanF]
        cases hml : m [] with
        | some r => exact absurd (hm _ _ hml) (by simp)
        | none => rfl
    | cons c t =>
      have hlen : (c :: t).length = t.length + 1 := rfl
      cases fuel with
      | zero => simp [hlen] at hfuel
      | succ f =>
        show subScanF m repl (f + 1) (c :: t) = subScanF m repl (c :: t).length (c :: t)
        rw [hlen]
        cases hml : m (c :: t) with
        | some r =>
          have hr := hm _ _ hml
          have h1 : subScanF m repl f r = subScan m repl r := by
            apply ih r (by simp at hr hl ⊢; omega) f (by simp at hr hfuel ⊢; omega)
          have h2 : subScanF m repl t.length r = subScan m repl r := by
            apply ih r (by simp at hr hl ⊢; omega) t.length (by simp at hr ⊢; omega)
          simp only [subScanF, hml, h1, h2]
        | none =>
          have h1 : subScanF m repl f t = subScan m repl t := by
            apply ih t (by simp at hl; omega) f (by simp at hfuel; omega)
          have h2 : subScanF m repl t.length t = subScan m repl t :=
            ih t (by simp at hl; omega) t.length (by omega)
          simp only [subScanF, hml, h1, h2]

theorem subScan_nil {m} {repl : List Char} : subScan m repl [] = [] := rfl

theorem subScan_cons {m} {repl : List Char} {c : Char} {t : List Char}
    (h : m (c :: t) = none) : subScan m repl (c :: t) = c :: subScan m repl t := by
  show subScanF m repl (t.length + 1) (c :: t) = _
  simp only [subScanF, h]
  rfl

theorem subScan_match {m} {repl l r : List Char} (hm : Consumes m)
    (h : m l = some r) : subScan m repl l = repl ++ subScan m repl r := by
  have hr := hm _ _ h
  cases l with
  | nil => simp at hr
  | cons c t =>
    show subScanF m repl (t.length + 1) (c :: t) = _
    simp only [subScanF, h]
    congr 1
    exact subScanF_suff hm t.length r (by simp at hr; omega) t.length (by simp at hr; omega)

theorem containsPat_tail {m} {c : Char} {t : List Char}
    (h : containsPat m (c :: t) = false) : containsPat m t = false := by
  simp [containsPat] at h
  exact h.2

theorem subScan_of_not_contains {m} {repl : List Char} :
    ∀ {l : List Char}, containsPat m l = false → subScan m repl l = l := by
  intro l
  induction l with
  | nil => intro _; rfl
  | cons c t ih =>
    intro h
    have h1 : m (c :: t) = none := by
      simp [containsPat] at h
      exact Option.not_isSome_iff_eq_none.mp (by simp [h.1])
    rw [subScan_cons h1, ih (containsPat_tail h)]

theorem consumes_matchLitAt {pat : List Char} (hpat : pat ≠ []) :
    Consumes (matchLitAt pat) := by
  intro l r h
  unfold matchLitAt at h
  split at h
  · next hcond =>
    simp only [Option.some.injEq] at h
    obtain ⟨rest, rfl⟩ := (leadsWith_iff pat l).mp (by
      rcases Bool.and_eq_true .. |>.mp hcond with ⟨_, h2⟩
      exact h2)
    subst h
    have : pat.length ≥ 1 := by
      cases pat with
      | nil => exact absurd rfl hpat
      | cons a b => simp
    simp [List.length_drop]
    omega
  · exact absurd h (by simp)

theorem consumes_matchSizeAt : Consumes matchSizeAt := by
  intro l r h
  unfold matchSizeAt at h
  split at h
  · next hcond =>
    obtain ⟨rest, rfl⟩ := (leadsWith_iff _ l).mp hcond
    split at h
    · exact absurd h (by simp)
    · simp only [Option.some.injEq] at h
      have hd : ((("/size/w".data ++ rest).drop 7).dropWhile isDig).length ≤ rest.length := by
        have : ("/size/w".data ++ rest).drop 7 = rest := List.drop_left "/size/w".data rest
        rw [this]
        exact length_dropWhile_le _ _
      subst h
      split <;> simp [List.length_drop] <;> simp at hd ⊢ <;> omega
  · exact absurd h (by simp)

theorem consumes_matchFormatAt : Consumes matchFormatAt := by
  intro l r h
  unfold matchFormatAt at h
  split at h
  · next hcond =>
    obtain ⟨rest, rfl⟩ := (leadsWith_iff _ l).mp hcond
    simp only [Option.some.injEq] at h
    have hdrop : ("/format/webp".data ++ rest).drop 12 = rest :=
      List.drop_left "/format/webp".data rest
    subst h
    rw [hdrop]
    split <;> simp [List.length_drop] <;> omega
  · exact absurd h (by simp)

theorem consumes_matchSizeBareAt : Consumes matchSizeBareAt := by
  intro l r h
  unfold matchSizeBareAt at h
  split at h
  · next hcond =>
    obtain ⟨rest, rfl⟩ := (leadsWith_iff _ l).mp hcond
    split at h
    · exact absurd h (by simp)
    · simp only [Option.some.injEq] at h
      have hdrop : ("/size/w".data ++ rest).drop 7 = rest := List.drop_left "/size/w".data rest
      subst h
      rw [hdrop]
      have := length_dropWhile_le isDig rest
      simp
      omega
  · exact absurd h (by simp)

theorem consumes_matchFormatWordAt : Consumes matchFormatWordAt := by
  intro l r h
  unfold matchFormatWordAt at h
  split at h
  · next hcond =>
    obtain ⟨rest, rfl⟩ := (leadsWith_iff _ l).mp hcond
    split at h
    · exact absurd h (by simp)
    · simp only [Option.some.injEq] at h
      have hdrop : ("/format/".data ++ rest).drop 8 = rest := List.drop_left "/format/".data rest
      subst h
      rw [hdrop]
      have := length_dropWhile_le isWordChar rest
      simp
      omega
  · exact absurd h (by simp)

theorem takeWhile_append_all {p : Char → Bool} {xs ys : List Char} (h : xs.all p = true) :
    (xs ++ ys).takeWhile p = xs ++ ys.takeWhile p := by
  rw [List.takeWhile_append, List.takeWhile_eq_self_iff.mpr (List.all_eq_true.mp h)]
  simp

theorem dropWhile_append_all {p : Char → Bool} {xs ys : List Char} (h : xs.all p = true) :
    (xs ++ ys).dropWhile p = ys.dropWhile p := by
  rw [List.dropWhile_append, if_pos]
  rw [List.dropWhile_eq_nil_iff.mpr (List.all_eq_true.mp h)]
  rfl

theorem takeWhile_stop {p : Char → Bool} {c : Char} {t : List Char} (h : p c = false) :
    (c :: t).takeWhile p = [] := by
  simp [List.takeWhile_cons, h]

theorem dropWhile_stop {p : Char → Bool} {c : Char} {t : List Char} (h : p c = false) :
    (c :: t).dropWhile p = c :: t := by
  simp [List.dropWhile_cons, h]

/-! ## Path-shape lemmas -/

theorem all_ne_of_not_mem {c : Char} {l : List Char} (h : c ∉ l) :
    l.all (fun x => decide (x ≠ c)) = true := by
  rw [List.all_eq_true]
  intro x hx
  simp only [decide_eq_true_eq]
  intro hxe
  subst hxe
  exact h hx

theorem afterLastSlash_noSlash {xs : List Char} (h : '/' ∉ xs) :
    afterLastSlash xs = xs := by
  unfold afterLastSlash
  rw [List.takeWhile_eq_self_iff.mpr ?_, List.reverse_reverse]
  intro x hx
  simp only [decide_eq_true_eq]
  intro hxe
  subst hxe
  exact h (List.mem_reverse.mp hx)

theorem afterLastSlash_append {xs ys : List Char} (h : '/' ∉ ys) :
    afterLastSlash (xs ++ '/' :: ys) = ys := by
  unfold afterLastSlash
  rw [List.reverse_append, List.reverse_cons, List.append_assoc,
    takeWhile_append_all (p := fun c => decide (c ≠ '/'))
      (all_ne_of_not_mem (by simpa using h)), List.singleton_append,
    takeWhile_stop (by simp)]
  simp

theorem take_append_exact {xs ys : List Char} (n : Nat) (h : n = xs.length) :
    (xs ++ ys).take n = xs := by
  subst h
  exact List.take_left xs ys

theorem dirname_append {xs ys : List Char} (hys : '/' ∉ ys)
    (hxs : xs.any (· ≠ '/') = true)
    (hxe : xs.reverse.dropWhile (· = '/') = xs.reverse) :
    dirnameChars (xs ++ '/' :: ys) = xs := by
  simp only [dirnameChars]
  rw [afterLastSlash_append hys]
  have htake : (xs ++ '/' :: ys).take ((xs ++ '/' :: ys).length - ys.length) = xs ++ ['/'] := by
    rw [show (xs ++ '/' :: ys).length - ys.length = (xs ++ ['/']).length by
        simp only [List.length_append, List.length_cons, List.length_nil]; omega,
      show xs ++ '/' :: ys = (xs ++ ['/']) ++ ys by simp]
    exact List.take_left _ _
  rw [htake]
  rw [if_pos ?_]
  · rw [List.reverse_append]
    simp only [List.reverse_cons, List.reverse_nil, List.nil_append, List.singleton_append]
    rw [List.dropWhile_cons, if_pos (by simp), hxe, List.reverse_reverse]
  · have hany : (xs ++ ['/']).any (fun x => decide (x ≠ '/')) = true := by
      rw [List.any_append, hxs, Bool.true_or]
    simp [hany]
    simpa using hxs

theorem head_ne_of_not_mem {c : Char} {l : List Char} (hne : l ≠ []) (h : c ∉ l) :
    leadsWith [c] l = false := by
  cases l with
  | nil => exact absurd rfl hne
  | cons d t =>
    simp only [List.mem_cons, not_or] at h
    simp [leadsWith, h.1]

theorem any_ne_of_ne_nil {b : List Char} (hb : b ≠ []) (hbd : '.' ∉ b) :
    b.any (· ≠ '.') = true := by
  cases b with
  | nil => exact absurd rfl hb
  | cons c t =>
    simp only [List.mem_cons, not_or] at hbd
    simp [Ne.symm hbd.1]

theorem takeWhile_ne_dot {b r : List Char} (hrd : '.' ∉ r) :
    ((b ++ '.' :: r).reverse.takeWhile (· ≠ '.')) = r.reverse := by
  have hrev : (b ++ '.' :: r).reverse = r.reverse ++ '.' :: b.reverse := by
    simp [List.reverse_append]
  rw [hrev, takeWhile_append_all (p := fun c => decide (c ≠ '.'))
    (all_ne_of_not_mem (by simpa using hrd)), takeWhile_stop (by simp)]
  simp

theorem splitext_flat {b r : List Char} (hb : b ≠ []) (hbd : '.' ∉ b)
    (hbs : '/' ∉ b) (hrd : '.' ∉ r) (hrs : '/' ∉ r) :
    splitextChars (b ++ '.' :: r) = (b, '.' :: r) := by
  simp only [splitextChars]
  have hnos : '/' ∉ b ++ '.' :: r := by
    simp only [List.mem_append, List.mem_cons, not_or]
    exact ⟨hbs, by simp, hrs⟩
  rw [afterLastSlash_noSlash hnos]
  rw [if_pos (by simp : '.' ∈ b ++ '.' :: r)]
  rw [takeWhile_ne_dot hrd]
  rw [show (b ++ '.' :: r).length - 1 - r.reverse.length = b.length by
    simp only [List.length_append, List.length_cons, List.length_reverse]; omega]
  rw [take_append_exact b.length rfl, List.drop_left]
  rw [if_pos (any_ne_of_ne_nil hb hbd)]
  simp

theorem splitext_under {xs b r : List Char} (hb : b ≠ []) (hbd : '.' ∉ b)
    (hbs : '/' ∉ b) (hrd : '.' ∉ r) (hrs : '/' ∉ r) :
    splitextChars (xs ++ '/' :: (b ++ '.' :: r)) = (xs ++ '/' :: b, '.' :: r) := by
  simp only [splitextChars]
  have hnos : '/' ∉ b ++ '.' :: r := by
    simp only [List.mem_append, List.mem_cons, not_or]
    exact ⟨hbs, by simp, hrs⟩
  rw [afterLastSlash_append hnos]
  rw [if_pos (by simp : '.' ∈ b ++ '.' :: r)]
  have hpre : (xs ++ '/' :: (b ++ '.' :: r)).take
      ((xs ++ '/' :: (b ++ '.' :: r)).length - (b ++ '.' :: r).length) = xs ++ ['/'] := by
    rw [show xs ++ '/' :: (b ++ '.' :: r) = (xs ++ ['/']) ++ (b ++ '.' :: r) by simp]
    rw [show ((xs ++ ['/']) ++ (b ++ '.' :: r)).length - (b ++ '.' :: r).length
        = (xs ++ ['/']).length by
        simp only [List.length_append, List.length_cons]; omega]
    exact List.take_left _ _
  rw [hpre]
  rw [takeWhile_ne_dot hrd]
  rw [show (b ++ '.' :: r).length - 1 - r.reverse.length = b.length by
    simp only [List.length_append, List.length_cons, List.length_reverse]; omega]
  rw [take_append_exact b.length rfl, List.drop_left]
  rw [if_pos (any_ne_of_ne_nil hb hbd)]
  simp

theorem join_flat {a name : List Char} (hne : a ≠ [])
    (hlast : a.getLast? ≠ some '/') (hn : leadsWith ['/'] name = false) :
    joinChars a name = a ++ '/' :: name := by
  unfold joinChars
  rw [if_neg (by simp [hn]), if_neg (by simp [List.isEmpty_iff, hne, hlast])]

/-! ## Percent-decoding and URL-parsing lemmas -/

theorem unquoteF_no_pct : ∀ (fuel : Nat) (l : List Char), '%' ∉ l → unquoteF fuel l = l := by
  intro fuel
  induction fuel with
  | zero => intro l _; rfl
  | succ f ih =>
    intro l h
    cases l with
    | nil => rfl
    | cons c cs =>
      have hc : ¬ c = '%' := by
        intro hcc
        exact h (by simp [hcc])
      simp only [unquoteF, if_neg hc]
      rw [ih cs (fun hm => h (List.mem_cons_of_mem _ hm))]

theorem unquote_no_pct {l : List Char} (h : '%' ∉ l) : unquoteChars l = l :=
  unquoteF_no_pct l.length l h

theorem not_mem_of_all_plain {c : Char} {l : List Char}
    (hall : ∀ x ∈ l, plainUrlChar x = true) (hc : plainUrlChar c = false) : c ∉ l := by
  intro hmem
  rw [hall c hmem] at hc
  exact Bool.noConfusion hc

theorem dropTabCrLf_plain {l : List Char} (hall : ∀ x ∈ l, plainUrlChar x = true) :
    dropTabCrLf l = l := by
  unfold dropTabCrLf
  rw [List.filter_eq_self]
  intro a ha
  have h := hall a ha
  simp only [plainUrlChar, Bool.not_eq_true', Bool.or_eq_false_iff,
    decide_eq_false_iff_not] at h
  obtain ⟨⟨⟨⟨⟨n1, n2⟩, n3⟩, _⟩, _⟩, _⟩ := h
  simp [n1, n2, n3]

theorem splitAtFirst_not_mem {sep : Char} {l : List Char} (h : sep ∉ l) :
    splitAtFirst sep l = none := by
  unfold splitAtFirst
  rw [if_neg h]

/-- `urlparse` on a rooted path whose second character is not `/` and whose
characters are plain: scheme, netloc, params, query and fragment are all
empty and the path is returned verbatim. -/
theorem urlparse_pathOnly {c2 : Char} {rest : List Char} (hc2 : c2 ≠ '/')
    (hplain : ∀ c ∈ '/' :: c2 :: rest, plainUrlChar c = true) :
    urlparseM ('/' :: c2 :: rest) = some ⟨[], [], '/' :: c2 :: rest, [], [], []⟩ := by
  have h1 : lstripCtl ('/' :: c2 :: rest) = '/' :: c2 :: rest := by
    unfold lstripCtl
    rw [List.dropWhile_cons, if_neg (by simp)]
  have h2 : dropTabCrLf ('/' :: c2 :: rest) = '/' :: c2 :: rest := dropTabCrLf_plain hplain
  have h3 : schemeSplit ('/' :: c2 :: rest) = ([], '/' :: c2 :: rest) := by
    simp only [schemeSplit]
    rw [if_neg ?_]
    intro hcond
    have hho := ((Bool.and_eq_true ..).mp ((Bool.and_eq_true ..).mp hcond).1).2
    exact absurd hho (by decide)
  have h4 : netlocSplit ('/' :: c2 :: rest) = some ([], '/' :: c2 :: rest) := by
    simp only [netlocSplit]
    rw [if_neg ?_]
    simp only [leadsWith, Bool.and_eq_true, decide_eq_true_eq]
    intro hcond
    exact hc2 hcond.2.1.symm
  have h5 : splitAtFirst '#' ('/' :: c2 :: rest) = none :=
    splitAtFirst_not_mem (not_mem_of_all_plain hplain (by decide))
  have h6 : splitAtFirst '?' ('/' :: c2 :: rest) = none :=
    splitAtFirst_not_mem (not_mem_of_all_plain hplain (by decide))
  have h7 : ';' ∉ '/' :: c2 :: rest := not_mem_of_all_plain hplain (by decide)
  have hfrag : fragSplitStep ('/' :: c2 :: rest) = ('/' :: c2 :: rest, []) := by
    unfold fragSplitStep
    rw [h5]
  have hq : querySplitStep ('/' :: c2 :: rest) = ('/' :: c2 :: rest, []) := by
    unfold querySplitStep
    rw [h6]
  have hp : paramsSplitStep [] ('/' :: c2 :: rest) = ('/' :: c2 :: rest, []) := by
    unfold paramsSplitStep
    rw [if_neg (by simp [h7])]
  unfold urlparseM
  rw [h1, h2, h3]
  show urlparseCore [] (netlocSplit ('/' :: c2 :: rest)) = _
  rw [h4]
  simp only [urlparseCore, hfrag, hq, hp]

/-- `urlparse` on an absolute https URL with a bracket-free plain host and
a rooted plain path. -/
theorem urlparse_https {host path : List Char}
    (hhostOk : host.all (fun c => c ≠ '/' && c ≠ '?' && c ≠ '#') = true)
    (hhostPlain : ∀ c ∈ host, plainUrlChar c = true)
    (hhostNoBr : '[' ∉ host ∧ ']' ∉ host)
    (hpathHead : leadsWith ['/'] path = true)
    (hpathPlain : ∀ c ∈ path, plainUrlChar c = true) :
    urlparseM ("https://".data ++ (host ++ path)) =
      some ⟨"https".data, host, path, [], [], []⟩ := by
  obtain ⟨ptail, rfl⟩ := (leadsWith_iff ['/'] path).mp hpathHead
  rw [show (['/'] ++ ptail : List Char) = '/' :: ptail from rfl]
  have hplainAll : ∀ c ∈ "https://".data ++ (host ++ ('/' :: ptail)),
      plainUrlChar c = true := by
    intro c hc
    rw [List.mem_append] at hc
    rcases hc with hc | hc
    · fin_cases hc <;> decide
    · rw [List.mem_append] at hc
      rcases hc with hc | hc
      · exact hhostPlain c hc
      · exact hpathPlain c hc
  have h1 : lstripCtl ("https://".data ++ (host ++ ('/' :: ptail))) =
      "https://".data ++ (host ++ ('/' :: ptail)) := rfl
  have h2 : dropTabCrLf ("https://".data ++ (host ++ ('/' :: ptail))) =
      "https://".data ++ (host ++ ('/' :: ptail)) := dropTabCrLf_plain hplainAll
  have h3 : schemeSplit ("https://".data ++ (host ++ ('/' :: ptail))) =
      ("https".data, '/' :: '/' :: (host ++ ('/' :: ptail))) := rfl
  have hnet : netlocSplit ('/' :: '/' :: (host ++ ('/' :: ptail))) =
      some (host, '/' :: ptail) := by
    simp only [netlocSplit]
    have htw : List.takeWhile (fun c => decide (c ≠ '/') && decide (c ≠ '?') && decide (c ≠ '#'))
        (List.drop 2 ('/' :: '/' :: (host ++ '/' :: ptail))) = host := by
      show List.takeWhile _ (host ++ '/' :: ptail) = host
      rw [takeWhile_append_all hhostOk, takeWhile_stop (by decide), List.append_nil]
    have hdw : List.dropWhile (fun c => decide (c ≠ '/') && decide (c ≠ '?') && decide (c ≠ '#'))
        (List.drop 2 ('/' :: '/' :: (host ++ '/' :: ptail))) = '/' :: ptail := by
      show List.dropWhile _ (host ++ '/' :: ptail) = '/' :: ptail
      rw [dropWhile_append_all hhostOk, dropWhile_stop (by decide)]
    rw [htw, hdw]
    simp [show leadsWith ['/', '/'] ('/' :: '/' :: (host ++ '/' :: ptail)) = true from rfl,
      hhostNoBr.1, hhostNoBr.2]
  have h5 : splitAtFirst '#' ('/' :: ptail) = none := by
    refine splitAtFirst_not_mem (not_mem_of_all_plain ?_ (by decide))
    intro c hc
    exact hpathPlain c hc
  have h6 : splitAtFirst '?' ('/' :: ptail) = none := by
    refine splitAtFirst_not_mem (not_mem_of_all_plain ?_ (by decide))
    intro c hc
    exact hpathPlain c hc
  have h7 : ';' ∉ '/' :: ptail := by
    refine not_mem_of_all_plain ?_ (by decide)
    intro c hc
    exact hpathPlain c hc
  have hfrag : fragSplitStep ('/' :: ptail) = ('/' :: ptail, []) := by
    unfold fragSplitStep
    rw [h5]
  have hq : querySplitStep ('/' :: ptail) = ('/' :: ptail, []) := by
    unfold querySplitStep
    rw [h6]
  have hp : paramsSplitStep "https".data ('/' :: ptail) = ('/' :: ptail, []) := by
    unfold paramsSplitStep
    rw [if_neg (by simp [h7])]
  unfold urlparseM
  rw [h1, h2, h3]
  show urlparseCore "https".data (netlocSplit ('/' :: '/' :: (host ++ ('/' :: ptail)))) = _
  rw [hnet]
  simp only [urlparseCore, hfrag, hq, hp]

/-- `urlunparse` with empty scheme, netloc, params, query and fragment is
the identity on the path. -/
theorem urlunparse_pathOnly (p : List Char) :
    urlunparseM ⟨[], [], p, [], [], []⟩ = p := rfl

theorem isDig_plain {c : Char} (h : isDig c = true) : plainUrlChar c = true := by
  simp only [isDig, Bool.and_eq_true, decide_eq_true_eq] at h
  simp only [plainUrlChar, Bool.not_eq_true', Bool.or_eq_false_iff, decide_eq_false_iff_not]
  refine ⟨⟨⟨⟨⟨?_, ?_⟩, ?_⟩, ?_⟩, ?_⟩, ?_⟩ <;>
    (intro heq; subst heq; exact absurd h (by decide))

theorem isDig_ne_pct {c : Char} (h : isDig c = true) : c ≠ '%' := by
  intro heq
  subst heq
  exact absurd h (by decide)

theorem leadsWith_append_cancel (a b l : List Char) :
    leadsWith (a ++ b) (a ++ l) = leadsWith b l := by
  induction a with
  | nil => rfl
  | cons c cs ih => simp [leadsWith, ih]

/-- `replaceOne` fires at the head when the string starts with the
pattern. -/
theorem replaceOne_head {pat repl rest : List Char} (hpat : pat ≠ []) :
    replaceOne pat repl (pat ++ rest) = repl ++ rest := by
  cases pat with
  | nil => exact absurd rfl hpat
  | cons c ps =>
    show replaceOne (c :: ps) repl (c :: (ps ++ rest)) = repl ++ rest
    unfold replaceOne
    rw [if_pos ?_]
    · congr 1
      exact List.drop_left (c :: ps) rest
    · simp only [Bool.and_eq_true]
      refine ⟨by simp, ?_⟩
      exact leadsWith_append (c :: ps) rest

theorem consumes_matchSizeSlashAt : Consumes matchSizeSlashAt := by
  intro l r h
  unfold matchSizeSlashAt at h
  split at h
  · next hcond =>
    obtain ⟨rest, rfl⟩ := (leadsWith_iff _ l).mp hcond
    split at h
    · exact absurd h (by simp)
    · split at h
      · simp only [Option.some.injEq] at h
        have hdrop : ("/size/w".data ++ rest).drop 7 = rest := List.drop_left "/size/w".data rest
        subst h
        rw [hdrop]
        have := length_dropWhile_le isDig rest
        simp [List.length_drop]
        omega
      · exact absurd h (by simp)
  · exact absurd h (by simp)

/-! ## Canonicalization on well-formed variants -/

/-- Scanning `/content/images` finds no size-segment match: each of its
positions fails the matcher on its first two characters. -/
theorem subScanSize_ci (rest : List Char) :
    subScan matchSizeAt ['/'] ("/content/images".data ++ rest) =
      "/content/images".data ++ subScan matchSizeAt ['/'] rest := by
  show subScan matchSizeAt ['/']
      ('/' :: 'c' :: 'o' :: 'n' :: 't' :: 'e' :: 'n' :: 't' :: '/' :: 'i' :: 'm' :: 'a' :: 'g' :: 'e' :: 's' :: rest) = _
  rw [subScan_cons rfl, subScan_cons rfl, subScan_cons rfl, subScan_cons rfl,
    subScan_cons rfl, subScan_cons rfl, subScan_cons rfl, subScan_cons rfl,
    subScan_cons rfl, subScan_cons rfl, subScan_cons rfl, subScan_cons rfl,
    subScan_cons rfl, subScan_cons rfl, subScan_cons rfl]
  rfl

theorem subScanFormat_ci (rest : List Char) :
    subScan matchFormatAt ['/'] ("/content/images".data ++ rest) =
      "/content/images".data ++ subScan matchFormatAt ['/'] rest := by
  show subScan matchFormatAt ['/']
      ('/' :: 'c' :: 'o' :: 'n' :: 't' :: 'e' :: 'n' :: 't' :: '/' :: 'i' :: 'm' :: 'a' :: 'g' :: 'e' :: 's' :: rest) = _
  rw [subScan_cons rfl, subScan_cons rfl, subScan_cons rfl, subScan_cons rfl,
    subScan_cons rfl, subScan_cons rfl, subScan_cons rfl, subScan_cons rfl,
    subScan_cons rfl, subScan_cons rfl, subScan_cons rfl, subScan_cons rfl,
    subScan_cons rfl, subScan_cons rfl, subScan_cons rfl]
  rfl

theorem subScanDSlash_ci (rest : List Char) :
    subScan (matchLitAt ['/', '/']) ['/'] ("/content/images".data ++ rest) =
      "/content/images".data ++ subScan (matchLitAt ['/', '/']) ['/'] rest := by
  show subScan (matchLitAt ['/', '/']) ['/']
      ('/' :: 'c' :: 'o' :: 'n' :: 't' :: 'e' :: 'n' :: 't' :: '/' :: 'i' :: 'm' :: 'a' :: 'g' :: 'e' :: 's' :: rest) = _
  rw [subScan_cons rfl, subScan_cons rfl, subScan_cons rfl, subScan_cons rfl,
    subScan_cons rfl, subScan_cons rfl, subScan_cons rfl, subScan_cons rfl,
    subScan_cons rfl, subScan_cons rfl, subScan_cons rfl, subScan_cons rfl,
    subScan_cons rfl, subScan_cons rfl, subScan_cons rfl]
  rfl

/-- The size matcher fires on `/size/w<ds>/tail`, consuming everything up
to `tail`. -/
theorem matchSizeAt_fires {ds tail : List Char} (hds : ds ≠ [])
    (hdig : ds.all isDig = true) :
    matchSizeAt ("/size/w".data ++ (ds ++ '/' :: tail)) = some tail := by
  unfold matchSizeAt
  rw [if_pos (leadsWith_append _ _)]
  rw [show ("/size/w".data ++ (ds ++ '/' :: tail)).drop 7 = ds ++ '/' :: tail from
    List.drop_left "/size/w".data _]
  rw [takeWhile_append_all hdig, takeWhile_stop (by decide), List.append_nil]
  rw [if_neg (by simp [hds])]
  rw [dropWhile_append_all hdig, dropWhile_stop (by decide)]
  rw [if_pos (by simp [leadsWith])]
  rfl

theorem normalizePath_sizeVariant {ds tail : List Char} (hds : ds ≠ [])
    (hdig : ds.all isDig = true) (hclean : cleanSeg tail) :
    normalizePathChars ("/content/images/size/w".data ++ (ds ++ '/' :: tail)) =
      "/content/images/".data ++ tail := by
  obtain ⟨hplain, hpct, hsz, hfmt, hds2⟩ := hclean
  unfold normalizePathChars
  rw [show ("/content/images/size/w".data ++ (ds ++ '/' :: tail)) =
      "/content/images".data ++ ("/size/w".data ++ (ds ++ '/' :: tail)) from rfl]
  rw [subScanSize_ci]
  rw [subScan_match consumes_matchSizeAt (matchSizeAt_fires hds hdig)]
  rw [subScan_of_not_contains (containsPat_tail hsz)]
  rw [show "/content/images".data ++ (['/'] ++ tail) =
      "/content/images".data ++ ('/' :: tail) from rfl]
  rw [subScanFormat_ci, subScan_of_not_contains hfmt]
  unfold replaceAll
  rw [subScanDSlash_ci, subScan_of_not_contains hds2]
  rfl

theorem normalizePath_plainVariant {tail : List Char} (hclean : cleanSeg tail) :
    normalizePathChars ("/content/images/".data ++ tail) =
      "/content/images/".data ++ tail := by
  obtain ⟨hplain, hpct, hsz, hfmt, hds2⟩ := hclean
  unfold normalizePathChars
  rw [show ("/content/images/".data ++ tail) =
      "/content/images".data ++ ('/' :: tail) from rfl]
  rw [subScanSize_ci, subScan_of_not_contains hsz]
  rw [subScanFormat_ci, subScan_of_not_contains hfmt]
  unfold replaceAll
  rw [subScanDSlash_ci, subScan_of_not_contains hds2]

theorem variant_plain_all {ds tail : List Char} (hdig : ds.all isDig = true)
    (hplain : ∀ c ∈ tail, plainUrlChar c = true) :
    ∀ c ∈ "/content/images/size/w".data ++ (ds ++ '/' :: tail), plainUrlChar c = true := by
  intro c hc
  rw [List.mem_append] at hc
  rcases hc with hc | hc
  · fin_cases hc <;> decide
  · rw [List.mem_append] at hc
    rcases hc with hc | hc
    · exact isDig_plain (List.all_eq_true.mp hdig c hc)
    · rcases List.mem_cons.mp hc with hc | hc
      · subst hc
        decide
      · exact hplain c hc

theorem plain16_all {tail : List Char} (hplain : ∀ c ∈ tail, plainUrlChar c = true) :
    ∀ c ∈ "/content/images/".data ++ tail, plainUrlChar c = true := by
  intro c hc
  rw [List.mem_append] at hc
  rcases hc with hc | hc
  · fin_cases hc <;> decide
  · exact hplain c hc

theorem variant_no_pct {ds tail : List Char} (hdig : ds.all isDig = true)
    (hpct : '%' ∉ tail) :
    '%' ∉ "/content/images/size/w".data ++ (ds ++ '/' :: tail) := by
  intro hmem
  rw [List.mem_append] at hmem
  rcases hmem with hm | hm
  · exact absurd hm (by decide)
  · rw [List.mem_append] at hm
    rcases hm with hm | hm
    · exact isDig_ne_pct (List.all_eq_true.mp hdig '%' hm) rfl
    · rcases List.mem_cons.mp hm with hm | hm
      · exact absurd hm (by decide)
      · exact hpct hm

theorem plain16_no_pct {tail : List Char} (hpct : '%' ∉ tail) :
    '%' ∉ "/content/images/".data ++ tail := by
  intro hmem
  rw [List.mem_append] at hmem
  rcases hmem with hm | hm
  · exact absurd hm (by decide)
  · exact hpct hm

theorem canonicalize_sizeVariant {ds tail : List Char} (hds : ds ≠ [])
    (hdig : ds.all isDig = true) (hclean : cleanSeg tail) :
    canonicalize ⟨"/content/images/size/w".data ++ (ds ++ '/' :: tail)⟩ =
      some ⟨"/content/images/".data ++ tail⟩ := by
  obtain ⟨hplain, hpct, hsz, hfmt, hds2⟩ := hclean
  have hup : urlparseM ("/content/images/size/w".data ++ (ds ++ '/' :: tail)) =
      some ⟨[], [], "/content/images/size/w".data ++ (ds ++ '/' :: tail), [], [], []⟩ :=
    urlparse_pathOnly (by decide) (variant_plain_all hdig hplain)
  unfold canonicalize
  show (urlparseM (unquoteChars ("/content/images/size/w".data ++ (ds ++ '/' :: tail)))).map _ = _
  rw [unquote_no_pct (variant_no_pct hdig hpct), hup, Option.map_some',
    normalizePath_sizeVariant hds hdig ⟨hplain, hpct, hsz, hfmt, hds2⟩]

theorem canonicalize_plainVariant {tail : List Char} (hclean : cleanSeg tail) :
    canonicalize ⟨"/content/images/".data ++ tail⟩ =
      some ⟨"/content/images/".data ++ tail⟩ := by
  obtain ⟨hplain, hpct, hsz, hfmt, hds2⟩ := hclean
  have hup : urlparseM ("/content/images/".data ++ tail) =
      some ⟨[], [], "/content/images/".data ++ tail, [], [], []⟩ :=
    urlparse_pathOnly (by decide) (plain16_all hplain)
  unfold canonicalize
  show (urlparseM (unquoteChars ("/content/images/".data ++ tail))).map _ = _
  rw [unquote_no_pct (plain16_no_pct hpct), hup, Option.map_some',
    normalizePath_plainVariant ⟨hplain, hpct, hsz, hfmt, hds2⟩]

theorem sizeSegMatch_fires {ds tail : List Char} (hds : ds ≠ [])
    (hdig : ds.all isDig = true) :
    sizeSegMatch ("/content/images/size/w".data ++ (ds ++ '/' :: tail)) =
      some ("/content/images/size/w".data ++ ds ++ ['/']) := by
  unfold sizeSegMatch
  rw [if_pos (leadsWith_append _ _)]
  rw [show ("/content/images/size/w".data ++ (ds ++ '/' :: tail)).drop 22 =
      ds ++ '/' :: tail from List.drop_left "/content/images/size/w".data _]
  rw [takeWhile_append_all hdig, takeWhile_stop (by decide), List.append_nil]
  rw [dropWhile_append_all hdig, dropWhile_stop (by decide)]
  rw [if_pos (by simp [List.isEmpty_iff, hds, leadsWith])]

theorem sizeSegMatch_plain {tail : List Char}
    (hsz : containsPat matchSizeAt ('/' :: tail) = false) :
    sizeSegMatch ("/content/images/".data ++ tail) = none := by
  unfold sizeSegMatch
  have hcanc : leadsWith "/content/images/size/w".data ("/content/images/".data ++ tail) =
      leadsWith "size/w".data tail := by
    show leadsWith ("/content/images/".data ++ "size/w".data)
      ("/content/images/".data ++ tail) = _
    exact leadsWith_append_cancel _ _ _
  cases hlw : leadsWith "size/w".data tail with
  | false =>
    rw [if_neg (by rw [hcanc, hlw]; exact Bool.noConfusion)]
  | true =>
    obtain ⟨rest, rfl⟩ := (leadsWith_iff _ _).mp hlw
    rw [if_pos (by rw [hcanc]; exact leadsWith_append _ _)]
    have hdrop : ("/content/images/".data ++ ("size/w".data ++ rest)).drop 22 = rest := by
      show (("/content/images/size/w".data ++ rest)).drop 22 = rest
      exact List.drop_left "/content/images/size/w".data rest
    rw [hdrop]
    rw [if_neg ?_]
    intro hcond
    have hfire : (matchSizeAt ('/' :: 's' :: 'i' :: 'z' :: 'e' :: '/' :: 'w' :: rest)).isSome
        = true := by
      show (matchSizeAt ("/size/w".data ++ rest)).isSome = true
      unfold matchSizeAt
      rw [if_pos (leadsWith_append _ _)]
      rw [show ("/size/w".data ++ rest).drop 7 = rest from List.drop_left "/size/w".data rest]
      rcases (Bool.and_eq_true ..).mp hcond with ⟨hne, _⟩
      rw [if_neg (by simp_all)]
      rfl
    simp [containsPat] at hsz
    rw [hsz.1] at hfire
    exact Bool.noConfusion hfire

theorem reconstruct_sizeVariant {ds tail : List Char} (hds : ds ≠ [])
    (hdig : ds.all isDig = true) (hclean : cleanSeg tail) :
    reconstruct ⟨"/content/images/".data ++ tail⟩
        ⟨"/content/images/size/w".data ++ (ds ++ '/' :: tail)⟩ =
      .ok ⟨"/content/images/size/w".data ++ (ds ++ '/' :: tail)⟩ := by
  obtain ⟨hplain, hpct, hsz, hfmt, hds2⟩ := hclean
  have hupV : urlparseM ("/content/images/size/w".data ++ (ds ++ '/' :: tail)) =
      some ⟨[], [], "/content/images/size/w".data ++ (ds ++ '/' :: tail), [], [], []⟩ :=
    urlparse_pathOnly (by decide) (variant_plain_all hdig hplain)
  have hupN : urlparseM ("/content/images/".data ++ tail) =
      some ⟨[], [], "/content/images/".data ++ tail, [], [], []⟩ :=
    urlparse_pathOnly (by decide) (plain16_all hplain)
  unfold reconstruct
  show (match urlparseM ("/content/images/size/w".data ++ (ds ++ '/' :: tail)) with
    | none => Except.error ()
    | some po => _) = _
  rw [hupV]
  show (match sizeSegMatch ("/content/images/size/w".data ++ (ds ++ '/' :: tail)) with
    | none => Except.ok _
    | some pfx => _) = _
  rw [sizeSegMatch_fires hds hdig]
  show (match urlparseM ("/content/images/".data ++ tail) with
    | none => Except.error ()
    | some pn => _) = _
  rw [hupN]
  show Except.ok (⟨urlunparseM ⟨[], [],
    replaceOne "/content/images/".data ("/content/images/size/w".data ++ ds ++ ['/'])
      ("/content/images/".data ++ tail), [], [], []⟩⟩ : String) = _
  rw [replaceOne_head (by decide), urlunparse_pathOnly]
  congr 2
  simp

theorem reconstruct_plainVariant {tail : List Char}
    (hclean : cleanSeg tail) :
    reconstruct ⟨"/content/images/".data ++ tail⟩ ⟨"/content/images/".data ++ tail⟩ =
      .ok ⟨"/content/images/".data ++ tail⟩ := by
  obtain ⟨hplain, hpct, hsz, hfmt, hds2⟩ := hclean
  have hupN : urlparseM ("/content/images/".data ++ tail) =
      some ⟨[], [], "/content/images/".data ++ tail, [], [], []⟩ :=
    urlparse_pathOnly (by decide) (plain16_all hplain)
  unfold reconstruct
  show (match urlparseM ("/content/images/".data ++ tail) with
    | none => Except.error ()
    | some po => _) = _
  rw [hupN]
  show (match sizeSegMatch ("/content/images/".data ++ tail) with
    | none => Except.ok _
    | some pfx => _) = _
  rw [sizeSegMatch_plain hsz]

/-- C2 (counterexample): the canonicalization idempotence equation
`canonicalize (reconstruct (canonicalize v) v) == canonicalize v` fails at
the doubly percent-encoded variant `%2541`: canonicalize strips one layer
of percent-encoding, so canonicalizing the reconstructed variant strips a
second layer (`%41` decodes to `A`), and the two sides differ. -/
theorem C2_counterexample_double_encoding :
    canonicalize "%2541" = some "%41" ∧
    reconstruct "%41" "%2541" = .ok "%41" ∧
    canonReconCanon "%2541" = some "A" ∧
    canonReconCanon "%2541" ≠ canonicalize "%2541" := by decide

/-- C2 (amended): the idempotence equation
`canonicalize (reconstruct (canonicalize v) v) == canonicalize v` holds for
every well-formed path-only variant: `/content/images/size/w<digits>/<name>`
or `/content/images/<name>` where `<name>` is free of percent escapes, URL
delimiters (`#`, `?`, `;`, control bytes) and further size/format or
double-slash segments.  For the size variant the canonical identity is the
variant with the size segment stripped. -/
theorem C2_canonicalize_idempotence_clean :
    (∀ ds tail : List Char, ds ≠ [] → ds.all isDig = true → cleanSeg tail →
      canonReconCanon ⟨"/content/images/size/w".data ++ (ds ++ '/' :: tail)⟩ =
        canonicalize ⟨"/content/images/size/w".data ++ (ds ++ '/' :: tail)⟩ ∧
      canonicalize ⟨"/content/images/size/w".data ++ (ds ++ '/' :: tail)⟩ =
        some ⟨"/content/images/".data ++ tail⟩) ∧
    (∀ tail : List Char, cleanSeg tail →
      canonReconCanon ⟨"/content/images/".data ++ tail⟩ =
        canonicalize ⟨"/content/images/".data ++ tail⟩) := by
  constructor
  · intro ds tail hds hdig hclean
    have hc := canonicalize_sizeVariant hds hdig hclean
    refine ⟨?_, hc⟩
    unfold canonReconCanon
    simp only [hc, reconstruct_sizeVariant hds hdig hclean]
  · intro tail hclean
    have hc := canonicalize_plainVariant hclean
    unfold canonReconCanon
    simp only [hc, reconstruct_plainVariant hclean]

/-- Witness for the amended C2 theorem at the concrete variant
`/content/images/size/w600/2024/a.png`. -/
theorem C2_canonicalize_idempotence_clean_witness :
    canonReconCanon "/content/images/size/w600/2024/a.png" =
      canonicalize "/content/images/size/w600/2024/a.png" ∧
    canonicalize "/content/images/size/w600/2024/a.png" =
      some "/content/images/2024/a.png" :=
  C2_canonicalize_idempotence_clean.1 "600".data "2024/a.png".data
    (by decide) (by decide) ⟨by decide, by decide, by decide, by decide, by decide⟩

/-! ## Worker-evaluation lemmas -/

theorem getLast_ne_slash {dir : List Char}
    (hdirE : dir.reverse.dropWhile (· = '/') = dir.reverse) :
    dir.getLast? ≠ some '/' := by
  intro hlast
  rw [← List.head?_reverse] at hlast
  cases hrev : dir.reverse with
  | nil =>
    rw [hrev] at hlast
    exact Option.noConfusion hlast
  | cons c t =>
    rw [hrev] at hlast
    simp only [List.head?_cons, Option.some.injEq] at hlast
    subst hlast
    rw [hrev, List.dropWhile_cons, if_pos (by simp)] at hdirE
    have := congrArg List.length hdirE
    simp at this
    have hle := length_dropWhile_le (fun x => decide (x = '/')) t
    omega

/-- `str.replace` with one-character pattern and replacement is a map. -/
theorem replaceAll_single (a b : Char) :
    ∀ l : List Char, replaceAll [a] [b] l = l.map (fun c => if c = a then b else c) := by
  intro l
  induction l with
  | nil => rfl
  | cons c t ih =>
    by_cases hc : c = a
    · subst hc
      have hm : matchLitAt [c] (c :: t) = some t := by
        unfold matchLitAt
        rw [if_pos (by simp [leadsWith])]
        rfl
      unfold replaceAll
      rw [subScan_match (consumes_matchLitAt (by simp)) hm]
      unfold replaceAll at ih
      rw [ih]
      simp
    · have hm : matchLitAt [a] (c :: t) = none := by
        unfold matchLitAt
        rw [if_neg (by simp [leadsWith]; exact fun h => hc h.symm)]
      unfold replaceAll
      rw [subScan_cons hm]
      unfold replaceAll at ih
      rw [ih]
      simp [hc]

theorem no_slash_replaceExt {r : List Char} (hrs : '/' ∉ r) :
    '/' ∉ replaceAll ['.'] ['_'] ('.' :: r) := by
  rw [replaceAll_single]
  intro hmem
  rw [List.mem_map] at hmem
  obtain ⟨c, hc, hceq⟩ := hmem
  rcases List.mem_cons.mp hc with hc1 | hc1
  · subst hc1
    simp at hceq
  · by_cases hca : c = '.'
    · simp [hca] at hceq
    · rw [if_neg hca] at hceq
      subst hceq
      exact hrs hc1

theorem leadsWith_slash_append_false {l tail0 : List Char} (hl : '/' ∉ l)
    (ht : leadsWith ['/'] tail0 = false) :
    leadsWith ['/'] (l ++ tail0) = false := by
  cases l with
  | nil => exact ht
  | cons c t =>
    simp only [List.mem_cons, not_or] at hl
    have : ¬ '/' = c := hl.1
    simp [leadsWith, this]

/-- Evaluation of `_convert_worker` on a well-shaped path `dir/b.r`: the
extension guard does not fire, the final basename is `fb` (duplicate-group
extension encoding and trailing `_o` handling), and the outcome is decided
by the existence check and the disambiguation loop on `fb`. -/
theorem convertWorker_eval (fs : String → Bool) (root : String)
    (dups : List (String × List String)) (dir b r : List Char)
    (hdirA : dir.any (· ≠ '/') = true)
    (hdirE : dir.reverse.dropWhile (· = '/') = dir.reverse)
    (hb : b ≠ []) (hbd : '.' ∉ b) (hbs : '/' ∉ b)
    (hrd : '.' ∉ r) (hrs : '/' ∉ r)
    (hico : ((⟨lowerChars ('.' :: r)⟩ : String) = ".ico") = False)
    (fb : List Char)
    (hfb : fb =
      (if endsWithChars (lowerChars b) "_o".data then
        (if dups.any (fun g => g.2.contains (⟨dir ++ '/' :: (b ++ '.' :: r)⟩ : String)) then
          b.dropLast.dropLast ++ replaceAll ['.'] ['_'] ('.' :: r)
        else b.dropLast.dropLast) ++ "_o".data
      else
        (if dups.any (fun g => g.2.contains (⟨dir ++ '/' :: (b ++ '.' :: r)⟩ : String)) then
          b ++ replaceAll ['.'] ['_'] ('.' :: r)
        else b))) :
    convertWorker fs root dups ⟨dir ++ '/' :: (b ++ '.' :: r)⟩ =
      (match (if fs ⟨dir ++ '/' :: (fb ++ ".webp".data)⟩ then uniqueLoop fs dir fb 1 100
          else Except.ok (dir ++ '/' :: (fb ++ ".webp".data))) with
        | .error _ =>
          .error ⟨dir ++ '/' :: (b ++ '.' :: r)⟩
            ("Could not find a unique filename for " ++
              (⟨dir ++ '/' :: (b ++ '.' :: r)⟩ : String) ++ " after 100 attempts.")
        | .ok outPath =>
          .success ⟨dir ++ '/' :: (b ++ '.' :: r)⟩ ⟨outPath⟩
            ⟨joinChars "/content/images".data
              (relpathChars (dir ++ '/' :: (b ++ '.' :: r)) root.data)⟩
            ⟨joinChars "/content/images".data (relpathChars outPath root.data)⟩) := by
  have hdirNE : dir ≠ [] := by
    intro h
    rw [h] at hdirA
    simp at hdirA
  have hnobr : '/' ∉ b ++ '.' :: r := by
    simp only [List.mem_append, List.mem_cons, not_or]
    exact ⟨hbs, by simp, hrs⟩
  have hbase : basenameChars (dir ++ '/' :: (b ++ '.' :: r)) = b ++ '.' :: r :=
    afterLastSlash_append hnobr
  have hfbslash : '/' ∉ fb := by
    subst hfb
    have hdl : '/' ∉ b.dropLast.dropLast := fun hm =>
      hbs (List.Sublist.mem (List.Sublist.mem hm (List.dropLast_sublist _))
        (List.dropLast_sublist _))
    have hrep := no_slash_replaceExt hrs
    split
    · rw [List.mem_append]
      rintro (hm | hm)
      · split at hm
        · rw [List.mem_append] at hm
          rcases hm with hm | hm
          · exact hdl hm
          · exact hrep hm
        · exact hdl hm
      · exact absurd hm (by decide)
    · split
      · rw [List.mem_append]
        rintro (hm | hm)
        · exact hbs hm
        · exact hrep hm
      · exact hbs
  have hjoin : joinChars dir (fb ++ ".webp".data) = dir ++ '/' :: (fb ++ ".webp".data) :=
    join_flat hdirNE (getLast_ne_slash hdirE)
      (leadsWith_slash_append_false hfbslash (by decide))
  have hfbE :
      (if endsWithChars (lowerChars b) "_o".data = true then
        (if (dups.any fun g =>
            g.2.contains (⟨dir ++ '/' :: (b ++ '.' :: r)⟩ : String)) = true then
          (if endsWithChars (lowerChars b) "_o".data = true then
            b.dropLast.dropLast else b) ++ replaceAll ['.'] ['_'] ('.' :: r)
        else
          (if endsWithChars (lowerChars b) "_o".data = true then
            b.dropLast.dropLast else b)) ++ "_o".data
      else
        (if (dups.any fun g =>
            g.2.contains (⟨dir ++ '/' :: (b ++ '.' :: r)⟩ : String)) = true then
          (if endsWithChars (lowerChars b) "_o".data = true then
            b.dropLast.dropLast else b) ++ replaceAll ['.'] ['_'] ('.' :: r)
        else
          (if endsWithChars (lowerChars b) "_o".data = true then
            b.dropLast.dropLast else b))) = fb := by
    rw [hfb]
    cases endsWithChars (lowerChars b) "_o".data <;>
      cases (dups.any fun g =>
        g.2.contains (⟨dir ++ '/' :: (b ++ '.' :: r)⟩ : String)) <;> simp
  have hguard : ¬ ((('.' :: r).isEmpty ||
      decide ((⟨lowerChars ('.' :: r)⟩ : String) = ".ico")) = true) := by
    simp [hico]
  simp only [convertWorker, hbase, splitext_under hb hbd hbs hrd hrs,
    splitext_flat hb hbd hbs hrd hrs, dirname_append hnobr hdirA hdirE]
  rw [if_neg hguard]
  rw [hfbE, hjoin]

/-- Specialisation: the chosen output name is free on disk, so no
disambiguation loop runs and the success result carries the derived url
paths. -/
theorem convertWorker_fresh (fs : String → Bool) (root : String)
    (dups : List (String × List String)) (dir b r : List Char)
    (hdirA : dir.any (· ≠ '/') = true)
    (hdirE : dir.reverse.dropWhile (· = '/') = dir.reverse)
    (hb : b ≠ []) (hbd : '.' ∉ b) (hbs : '/' ∉ b)
    (hrd : '.' ∉ r) (hrs : '/' ∉ r)
    (hico : ((⟨lowerChars ('.' :: r)⟩ : String) = ".ico") = False)
    (fb : List Char)
    (hfb : fb =
      (if endsWithChars (lowerChars b) "_o".data then
        (if dups.any (fun g => g.2.contains (⟨dir ++ '/' :: (b ++ '.' :: r)⟩ : String)) then
          b.dropLast.dropLast ++ replaceAll ['.'] ['_'] ('.' :: r)
        else b.dropLast.dropLast) ++ "_o".data
      else
        (if dups.any (fun g => g.2.contains (⟨dir ++ '/' :: (b ++ '.' :: r)⟩ : String)) then
          b ++ replaceAll ['.'] ['_'] ('.' :: r)
        else b)))
    (hfree : fs ⟨dir ++ '/' :: (fb ++ ".webp".data)⟩ = false) :
    convertWorker fs root dups ⟨dir ++ '/' :: (b ++ '.' :: r)⟩ =
      .success ⟨dir ++ '/' :: (b ++ '.' :: r)⟩ ⟨dir ++ '/' :: (fb ++ ".webp".data)⟩
        ⟨joinChars "/content/images".data
          (relpathChars (dir ++ '/' :: (b ++ '.' :: r)) root.data)⟩
        ⟨joinChars "/content/images".data
          (relpathChars (dir ++ '/' :: (fb ++ ".webp".data)) root.data)⟩ := by
  rw [convertWorker_eval fs root dups dir b r hdirA hdirE hb hbd hbs hrd hrs hico fb hfb,
    hfree]
  rfl

theorem map_nodot : ∀ (r : List Char), '.' ∉ r →
    r.map (fun c => if c = '.' then '_' else c) = r
  | [], _ => rfl
  | c :: t, h => by
    simp only [List.mem_cons, not_or] at h
    rw [List.map_cons, if_neg (fun hh => h.1 hh.symm), map_nodot t h.2]

/-- Encoding the extension into the basename (`ext.replace('.', '_')`) on a
dot-free extension body yields an underscore followed by the body. -/
theorem replaceExt_no_dot {r : List Char} (hrd : '.' ∉ r) :
    replaceAll ['.'] ['_'] ('.' :: r) = '_' :: r := by
  rw [replaceAll_single, List.map_cons, if_pos rfl, map_nodot r hrd]

theorem dropLast_pair (l : List Char) (x y : Char) :
    (l ++ [x, y]).dropLast.dropLast = l := by
  rw [show l ++ [x, y] = (l ++ [x]) ++ [y] by simp, List.dropLast_concat,
    List.dropLast_concat]

theorem string_mk_ne {l1 l2 : List Char} (h : l1 ≠ l2) :
    (⟨l1⟩ : String) ≠ ⟨l2⟩ := fun he => h (congrArg String.data he)

/-- C1: under the re-encode naming policy, two colliding assets `dir/b.r1`
and `dir/b.r2` that differ only in extension each convert successfully to a
name with the original extension encoded into the basename (`b_r1.webp`,
`b_r2.webp`), and those names are distinct; an asset whose basename carries
a trailing `_o` token keeps that token in final position of the new
basename (`b0_r_o.webp`); and a reference carrying a size segment rewrites
to the new name with the size segment preserved in place. -/
theorem C1_reencode_collision_distinct
    (fs : String → Bool) (root : String) (dups : List (String × List String))
    (dir b b0 r1 r2 r : List Char)
    (hdirA : dir.any (· ≠ '/') = true)
    (hdirE : dir.reverse.dropWhile (· = '/') = dir.reverse)
    (hb : b ≠ []) (hbd : '.' ∉ b) (hbs : '/' ∉ b)
    (hO : endsWithChars (lowerChars b) "_o".data = false)
    (hr1d : '.' ∉ r1) (hr1s : '/' ∉ r1) (hr2d : '.' ∉ r2) (hr2s : '/' ∉ r2)
    (hrne : r1 ≠ r2)
    (hico1 : ((⟨lowerChars ('.' :: r1)⟩ : String) = ".ico") = False)
    (hico2 : ((⟨lowerChars ('.' :: r2)⟩ : String) = ".ico") = False)
    (hD1 : (dups.any fun g =>
      g.2.contains (⟨dir ++ '/' :: (b ++ '.' :: r1)⟩ : String)) = true)
    (hD2 : (dups.any fun g =>
      g.2.contains (⟨dir ++ '/' :: (b ++ '.' :: r2)⟩ : String)) = true)
    (hfree1 : fs ⟨dir ++ '/' :: ((b ++ '_' :: r1) ++ ".webp".data)⟩ = false)
    (hfree2 : fs ⟨dir ++ '/' :: ((b ++ '_' :: r2) ++ ".webp".data)⟩ = false)
    (hb0d : '.' ∉ b0) (hb0s : '/' ∉ b0)
    (hO0 : endsWithChars (lowerChars (b0 ++ ['_', 'o'])) "_o".data = true)
    (hrd : '.' ∉ r) (hrs : '/' ∉ r)
    (hico0 : ((⟨lowerChars ('.' :: r)⟩ : String) = ".ico") = False)
    (hD0 : (dups.any fun g =>
      g.2.contains (⟨dir ++ '/' :: ((b0 ++ ['_', 'o']) ++ '.' :: r)⟩ : String)) = true)
    (hfree0 : fs ⟨dir ++ '/' :: (((b0 ++ '_' :: r) ++ ['_', 'o']) ++ ".webp".data)⟩ = false) :
    convertWorker fs root dups ⟨dir ++ '/' :: (b ++ '.' :: r1)⟩ =
      .success ⟨dir ++ '/' :: (b ++ '.' :: r1)⟩
        ⟨dir ++ '/' :: ((b ++ '_' :: r1) ++ ".webp".data)⟩
        ⟨joinChars "/content/images".data
          (relpathChars (dir ++ '/' :: (b ++ '.' :: r1)) root.data)⟩
        ⟨joinChars "/content/images".data
          (relpathChars (dir ++ '/' :: ((b ++ '_' :: r1) ++ ".webp".data)) root.data)⟩ ∧
    convertWorker fs root dups ⟨dir ++ '/' :: (b ++ '.' :: r2)⟩ =
      .success ⟨dir ++ '/' :: (b ++ '.' :: r2)⟩
        ⟨dir ++ '/' :: ((b ++ '_' :: r2) ++ ".webp".data)⟩
        ⟨joinChars "/content/images".data
          (relpathChars (dir ++ '/' :: (b ++ '.' :: r2)) root.data)⟩
        ⟨joinChars "/content/images".data
          (relpathChars (dir ++ '/' :: ((b ++ '_' :: r2) ++ ".webp".data)) root.data)⟩ ∧
    (⟨dir ++ '/' :: ((b ++ '_' :: r1) ++ ".webp".data)⟩ : String) ≠
      ⟨dir ++ '/' :: ((b ++ '_' :: r2) ++ ".webp".data)⟩ ∧
    convertWorker fs root dups ⟨dir ++ '/' :: ((b0 ++ ['_', 'o']) ++ '.' :: r)⟩ =
      .success ⟨dir ++ '/' :: ((b0 ++ ['_', 'o']) ++ '.' :: r)⟩
        ⟨dir ++ '/' :: (((b0 ++ '_' :: r) ++ ['_', 'o']) ++ ".webp".data)⟩
        ⟨joinChars "/content/images".data
          (relpathChars (dir ++ '/' :: ((b0 ++ ['_', 'o']) ++ '.' :: r)) root.data)⟩
        ⟨joinChars "/content/images".data
          (relpathChars (dir ++ '/' :: (((b0 ++ '_' :: r) ++ ['_', 'o']) ++ ".webp".data))
            root.data)⟩ ∧
    processUrl "https://host/content/images/size/w600/2024/a.png"
      [("/content/images/2024/a.png", "/content/images/2024/a_png.webp")] =
      .ok "https://host/content/images/size/w600/2024/a_png.webp" := by
  refine ⟨?_, ?_, ?_, ?_, by decide⟩
  · exact convertWorker_fresh fs root dups dir b r1 hdirA hdirE hb hbd hbs hr1d hr1s hico1
      (b ++ '_' :: r1)
      (by rw [if_neg (by simp [hO]), if_pos hD1, replaceExt_no_dot hr1d]) hfree1
  · exact convertWorker_fresh fs root dups dir b r2 hdirA hdirE hb hbd hbs hr2d hr2s hico2
      (b ++ '_' :: r2)
      (by rw [if_neg (by simp [hO]), if_pos hD2, replaceExt_no_dot hr2d]) hfree2
  · intro he
    apply hrne
    have h1 : dir ++ '/' :: ((b ++ '_' :: r1) ++ ".webp".data)
        = dir ++ '/' :: ((b ++ '_' :: r2) ++ ".webp".data) := congrArg String.data he
    have h2 := List.append_cancel_left h1
    injection h2 with _ h3
    have h4 := List.append_cancel_right h3
    have h5 := List.append_cancel_left h4
    injection h5 with _ h6
  · refine convertWorker_fresh fs root dups dir (b0 ++ ['_', 'o']) r hdirA hdirE
      (by simp) ?_ ?_ hrd hrs hico0
      ((b0 ++ '_' :: r) ++ ['_', 'o']) ?_ hfree0
    · intro hm
      rcases List.mem_append.mp hm with hm | hm
      · exact hb0d hm
      · simp at hm
    · intro hm
      rcases List.mem_append.mp hm with hm | hm
      · exact hb0s hm
      · simp at hm
    · rw [if_pos hO0, if_pos hD0, dropLast_pair, replaceExt_no_dot hrd]

/-- Witness for C1 at the colliding pair `/imgs/2024/a.png`, `/imgs/2024/a.jpg`
and the `_o`-suffixed `/imgs/2024/photo_o.png`. -/
theorem C1_reencode_collision_distinct_witness :
    convertWorker (fun _ => false) "/imgs"
        [("k", ["/imgs/2024/a.png", "/imgs/2024/a.jpg", "/imgs/2024/photo_o.png"])]
        "/imgs/2024/a.png" =
      .success "/imgs/2024/a.png" "/imgs/2024/a_png.webp"
        "/content/images/2024/a.png" "/content/images/2024/a_png.webp" ∧
    convertWorker (fun _ => false) "/imgs"
        [("k", ["/imgs/2024/a.png", "/imgs/2024/a.jpg", "/imgs/2024/photo_o.png"])]
        "/imgs/2024/a.jpg" =
      .success "/imgs/2024/a.jpg" "/imgs/2024/a_jpg.webp"
        "/content/images/2024/a.jpg" "/content/images/2024/a_jpg.webp" ∧
    ("/imgs/2024/a_png.webp" : String) ≠ "/imgs/2024/a_jpg.webp" ∧
    convertWorker (fun _ => false) "/imgs"
        [("k", ["/imgs/2024/a.png", "/imgs/2024/a.jpg", "/imgs/2024/photo_o.png"])]
        "/imgs/2024/photo_o.png" =
      .success "/imgs/2024/photo_o.png" "/imgs/2024/photo_png_o.webp"
        "/content/images/2024/photo_o.png" "/content/images/2024/photo_png_o.webp" ∧
    processUrl "https://host/content/images/size/w600/2024/a.png"
      [("/content/images/2024/a.png", "/content/images/2024/a_png.webp")] =
      .ok "https://host/content/images/size/w600/2024/a_png.webp" :=
  C1_reencode_collision_distinct (fun _ => false) "/imgs"
    [("k", ["/imgs/2024/a.png", "/imgs/2024/a.jpg", "/imgs/2024/photo_o.png"])]
    "/imgs/2024".data "a".data "photo".data "png".data "jpg".data "png".data
    (by decide) (by decide) (by decide) (by decide) (by decide) (by decide)
    (by decide) (by decide) (by decide) (by decide) (by decide)
    (eq_false (by decide)) (eq_false (by decide))
    (by decide) (by decide) rfl rfl
    (by decide) (by decide) (by decide) (by decide) (by decide)
    (eq_false (by decide)) (by decide) rfl

/-- If every disambiguation candidate `base_counter .. base_99` is taken,
the loop raises (the counter guard fires at 100 before any further
existence check). -/
theorem uniqueLoop_exhaust (fs : String → Bool) (dir base : List Char) :
    ∀ (fuel counter : Nat), counter + fuel = 101 → 1 ≤ counter →
    (∀ k, counter ≤ k → k ≤ 99 →
      fs ⟨joinChars dir (base ++ '_' :: Nat.toDigits 10 k ++ ".webp".data)⟩ = true) →
    uniqueLoop fs dir base counter fuel = .error ()
  | 0, counter, _, _, _ => rfl
  | fuel + 1, counter, hsum, hc1, htaken => by
    simp only [uniqueLoop]
    by_cases hc : counter + 1 > 100
    · rw [if_pos hc]
    · rw [if_neg hc, if_pos (htaken counter le_rfl (by omega))]
      exact uniqueLoop_exhaust fs dir base fuel (counter + 1) (by omega) (by omega)
        (fun k hk1 hk2 => htaken k (by omega) hk2)

/-- If `base_k` is the first free disambiguation candidate and `k ≤ 99`,
the loop stops there and returns it. -/
theorem uniqueLoop_findFree (fs : String → Bool) (dir base : List Char) (k : Nat)
    (hk99 : k ≤ 99)
    (hfree : fs ⟨joinChars dir (base ++ '_' :: Nat.toDigits 10 k ++ ".webp".data)⟩ = false) :
    ∀ (fuel counter : Nat), counter + fuel = 101 → 1 ≤ counter → counter ≤ k →
    (∀ j, counter ≤ j → j < k →
      fs ⟨joinChars dir (base ++ '_' :: Nat.toDigits 10 j ++ ".webp".data)⟩ = true) →
    uniqueLoop fs dir base counter fuel =
      .ok (joinChars dir (base ++ '_' :: Nat.toDigits 10 k ++ ".webp".data))
  | 0, counter, hsum, _, hck, _ => by omega
  | fuel + 1, counter, hsum, hc1, hck, htaken => by
    simp only [uniqueLoop]
    rw [if_neg (by omega : ¬ counter + 1 > 100)]
    by_cases hek : counter = k
    · subst hek
      rw [hfree, if_neg (by decide : ¬ (false = true))]
    · rw [if_pos (htaken counter le_rfl (by omega))]
      exact uniqueLoop_findFree fs dir base k hk99 hfree fuel (counter + 1) (by omega)
        (by omega) (by omega) (fun j h1 h2 => htaken j (by omega) h2)

/-- C8: when the chosen target name already exists the worker appends a
numeric disambiguator and retries; the search is bounded — with candidates
`_1 .. _99` all taken it returns that single asset's error outcome carrying
the 100-attempts message; and the pool isolates outcomes, each task's
result being exactly its own worker run. -/
theorem C8_bounded_disambiguation
    (fs : String → Bool) (root : String) (dups : List (String × List String))
    (dir b r : List Char)
    (hdirA : dir.any (· ≠ '/') = true)
    (hdirE : dir.reverse.dropWhile (· = '/') = dir.reverse)
    (hb : b ≠ []) (hbd : '.' ∉ b) (hbs : '/' ∉ b)
    (hrd : '.' ∉ r) (hrs : '/' ∉ r)
    (hico : ((⟨lowerChars ('.' :: r)⟩ : String) = ".ico") = False)
    (fb : List Char)
    (hfb : fb =
      (if endsWithChars (lowerChars b) "_o".data then
        (if dups.any (fun g => g.2.contains (⟨dir ++ '/' :: (b ++ '.' :: r)⟩ : String)) then
          b.dropLast.dropLast ++ replaceAll ['.'] ['_'] ('.' :: r)
        else b.dropLast.dropLast) ++ "_o".data
      else
        (if dups.any (fun g => g.2.contains (⟨dir ++ '/' :: (b ++ '.' :: r)⟩ : String)) then
          b ++ replaceAll ['.'] ['_'] ('.' :: r)
        else b))) :
    (∀ k, 1 ≤ k → k ≤ 99 →
      fs ⟨dir ++ '/' :: (fb ++ ".webp".data)⟩ = true →
      (∀ j, 1 ≤ j → j < k →
        fs ⟨joinChars dir (fb ++ '_' :: Nat.toDigits 10 j ++ ".webp".data)⟩ = true) →
      fs ⟨joinChars dir (fb ++ '_' :: Nat.toDigits 10 k ++ ".webp".data)⟩ = false →
      convertWorker fs root dups ⟨dir ++ '/' :: (b ++ '.' :: r)⟩ =
        .success ⟨dir ++ '/' :: (b ++ '.' :: r)⟩
          ⟨joinChars dir (fb ++ '_' :: Nat.toDigits 10 k ++ ".webp".data)⟩
          ⟨joinChars "/content/images".data
            (relpathChars (dir ++ '/' :: (b ++ '.' :: r)) root.data)⟩
          ⟨joinChars "/content/images".data
            (relpathChars (joinChars dir (fb ++ '_' :: Nat.toDigits 10 k ++ ".webp".data))
              root.data)⟩) ∧
    (fs ⟨dir ++ '/' :: (fb ++ ".webp".data)⟩ = true →
      (∀ j, 1 ≤ j → j ≤ 99 →
        fs ⟨joinChars dir (fb ++ '_' :: Nat.toDigits 10 j ++ ".webp".data)⟩ = true) →
      convertWorker fs root dups ⟨dir ++ '/' :: (b ++ '.' :: r)⟩ =
        .error ⟨dir ++ '/' :: (b ++ '.' :: r)⟩
          ("Could not find a unique filename for " ++
            (⟨dir ++ '/' :: (b ++ '.' :: r)⟩ : String) ++ " after 100 attempts.")) ∧
    (∀ (tasks : List String) (j : Nat),
      (convertBatch fs root dups tasks)[j]? =
        tasks[j]?.map (convertWorker fs root dups)) := by
  refine ⟨?_, ?_, ?_⟩
  · intro k hk1 hk99 htaken0 htaken hfree
    rw [convertWorker_eval fs root dups dir b r hdirA hdirE hb hbd hbs hrd hrs hico fb hfb,
      htaken0, if_pos rfl,
      uniqueLoop_findFree fs dir fb k hk99 hfree 100 1 rfl le_rfl hk1
        (fun j h1 h2 => htaken j h1 h2)]
  · intro htaken0 htaken
    rw [convertWorker_eval fs root dups dir b r hdirA hdirE hb hbd hbs hrd hrs hico fb hfb,
      htaken0, if_pos rfl,
      uniqueLoop_exhaust fs dir fb 100 1 rfl le_rfl (fun j h1 h2 => htaken j h1 h2)]
  · intro tasks j
    simp [convertBatch, List.getElem?_map]

/-- Witness for C8: with `a.webp` and `a_1.webp` taken the worker lands on
`a_2.webp`; with everything taken it reports the single-asset error; the
batch entry equals the worker run. -/
theorem C8_bounded_disambiguation_witness :
    convertWorker (fun s => (s == "/imgs/a.webp") || (s == "/imgs/a_1.webp")) "/imgs" []
        "/imgs/a.png" =
      .success "/imgs/a.png" "/imgs/a_2.webp"
        "/content/images/a.png" "/content/images/a_2.webp" ∧
    convertWorker (fun _ => true) "/imgs" [] "/imgs/a.png" =
      .error "/imgs/a.png"
        "Could not find a unique filename for /imgs/a.png after 100 attempts." ∧
    (convertBatch (fun _ => true) "/imgs" [] ["/imgs/a.png"])[0]? =
      (["/imgs/a.png"] : List String)[0]?.map (convertWorker (fun _ => true) "/imgs" []) :=
  ⟨(C8_bounded_disambiguation (fun s => (s == "/imgs/a.webp") || (s == "/imgs/a_1.webp"))
      "/imgs" [] "/imgs".data "a".data "png".data (by decide) (by decide) (by decide)
      (by decide) (by decide) (by decide) (by decide) (eq_false (by decide))
      "a".data (by decide)).1 2 (by omega) (by omega) (by decide)
      (by
        intro j h1 h2
        have hj : j = 1 := by omega
        subst hj
        decide)
      (by decide),
   (C8_bounded_disambiguation (fun _ => true) "/imgs" [] "/imgs".data "a".data "png".data
      (by decide) (by decide) (by decide) (by decide) (by decide) (by decide) (by decide)
      (eq_false (by decide)) "a".data (by decide)).2.1 rfl (fun j h1 h2 => rfl),
   (C8_bounded_disambiguation (fun _ => true) "/imgs" [] "/imgs".data "a".data "png".data
      (by decide) (by decide) (by decide) (by decide) (by decide) (by decide) (by decide)
      (eq_false (by decide)) "a".data (by decide)).2.2 ["/imgs/a.png"] 0⟩

/-- C4 counterexample: on a filesystem where the conversion has already
been applied (`/imgs/a.png` and its target `/imgs/a.webp` both exist),
re-running the worker does not skip the asset — it re-converts it under
the disambiguated name `/imgs/a_1.webp`, an additional differently named
file. -/
theorem C4_counterexample_rerun_not_skipped :
    convertWorker (fun s => (s == "/imgs/a.png") || (s == "/imgs/a.webp")) "/imgs" []
        "/imgs/a.png" =
      .success "/imgs/a.png" "/imgs/a_1.webp"
        "/content/images/a.png" "/content/images/a_1.webp" ∧
    convertWorker (fun s => (s == "/imgs/a.png") || (s == "/imgs/a.webp")) "/imgs" []
        "/imgs/a.png" ≠
      .skipped "/imgs/a.png" "File has no extension or is an icon file." := by
  refine ⟨by decide, by decide⟩

/-- C4 (amended): re-running the converter on an already-converted asset is
never `Skipped` — skipping happens only for extension-less or `.ico` paths;
instead the existing target sends the worker through the disambiguation
loop, producing the additional `_1`-suffixed file when that name is free.
The reorganize worker, in contrast, is idempotent: when the current path
already equals the planned target it returns success without attempting a
rename (so a missing source is not even an error). -/
theorem C4_rerun_appends_disambiguator
    (fs : String → Bool) (root : String) (dups : List (String × List String))
    (dir b r : List Char)
    (hdirA : dir.any (· ≠ '/') = true)
    (hdirE : dir.reverse.dropWhile (· = '/') = dir.reverse)
    (hb : b ≠ []) (hbd : '.' ∉ b) (hbs : '/' ∉ b)
    (hrd : '.' ∉ r) (hrs : '/' ∉ r)
    (hico : ((⟨lowerChars ('.' :: r)⟩ : String) = ".ico") = False)
    (fb : List Char)
    (hfb : fb =
      (if endsWithChars (lowerChars b) "_o".data then
        (if dups.any (fun g => g.2.contains (⟨dir ++ '/' :: (b ++ '.' :: r)⟩ : String)) then
          b.dropLast.dropLast ++ replaceAll ['.'] ['_'] ('.' :: r)
        else b.dropLast.dropLast) ++ "_o".data
      else
        (if dups.any (fun g => g.2.contains (⟨dir ++ '/' :: (b ++ '.' :: r)⟩ : String)) then
          b ++ replaceAll ['.'] ['_'] ('.' :: r)
        else b)))
    (htaken0 : fs ⟨dir ++ '/' :: (fb ++ ".webp".data)⟩ = true)
    (hfree1 : fs ⟨joinChars dir (fb ++ '_' :: Nat.toDigits 10 1 ++ ".webp".data)⟩ = false) :
    convertWorker fs root dups ⟨dir ++ '/' :: (b ++ '.' :: r)⟩ =
      .success ⟨dir ++ '/' :: (b ++ '.' :: r)⟩
        ⟨joinChars dir (fb ++ '_' :: Nat.toDigits 10 1 ++ ".webp".data)⟩
        ⟨joinChars "/content/images".data
          (relpathChars (dir ++ '/' :: (b ++ '.' :: r)) root.data)⟩
        ⟨joinChars "/content/images".data
          (relpathChars (joinChars dir (fb ++ '_' :: Nat.toDigits 10 1 ++ ".webp".data))
            root.data)⟩ ∧
    (∀ (reason : String),
      convertWorker fs root dups ⟨dir ++ '/' :: (b ++ '.' :: r)⟩ ≠
        .skipped ⟨dir ++ '/' :: (b ++ '.' :: r)⟩ reason) ∧
    (∀ (fs2 : String → Bool) (dryRun : Bool) (filePath slug newBase basePath contentName : String),
      normComps filePath.data =
        normComps (joinChars (joinChars basePath.data slug.data)
          (newBase.data ++ (splitextChars (basenameChars filePath.data)).2)) →
      reorganizeWorker fs2 dryRun filePath slug newBase basePath contentName =
        .success
          ⟨joinChars ("/content/".data ++ contentName.data)
            (relpathChars filePath.data basePath.data)⟩
          ⟨joinChars ("/content/".data ++ contentName.data)
            (relpathChars (joinChars (joinChars basePath.data slug.data)
              (newBase.data ++ (splitextChars (basenameChars filePath.data)).2))
              basePath.data)⟩) := by
  have hmain : convertWorker fs root dups ⟨dir ++ '/' :: (b ++ '.' :: r)⟩ =
      .success ⟨dir ++ '/' :: (b ++ '.' :: r)⟩
        ⟨joinChars dir (fb ++ '_' :: Nat.toDigits 10 1 ++ ".webp".data)⟩
        ⟨joinChars "/content/images".data
          (relpathChars (dir ++ '/' :: (b ++ '.' :: r)) root.data)⟩
        ⟨joinChars "/content/images".data
          (relpathChars (joinChars dir (fb ++ '_' :: Nat.toDigits 10 1 ++ ".webp".data))
            root.data)⟩ := by
    rw [convertWorker_eval fs root dups dir b r hdirA hdirE hb hbd hbs hrd hrs hico fb hfb,
      htaken0, if_pos rfl,
      uniqueLoop_findFree fs dir fb 1 (by omega) hfree1 100 1 rfl le_rfl le_rfl
        (fun j h1 h2 => absurd h2 (by omega))]
  refine ⟨hmain, ?_, ?_⟩
  · intro reason hskip
    rw [hmain] at hskip
    exact ConvOutcome.noConfusion hskip
  · intro fs2 dryRun filePath slug newBase basePath contentName hsame
    simp [reorganizeWorker, hsame]

/-- Witness for the amended C4 theorem: re-run on `/imgs/a.png` with the
target `/imgs/a.webp` present yields `/imgs/a_1.webp`; the reorganize
worker on an already-final path succeeds without a rename even though the
filesystem is empty. -/
theorem C4_rerun_appends_disambiguator_witness :
    convertWorker (fun s => (s == "/imgs/a.png") || (s == "/imgs/a.webp")) "/imgs" []
        "/imgs/a.png" =
      .success "/imgs/a.png" "/imgs/a_1.webp"
        "/content/images/a.png" "/content/images/a_1.webp" ∧
    (∀ (reason : String),
      convertWorker (fun s => (s == "/imgs/a.png") || (s == "/imgs/a.webp")) "/imgs" []
          "/imgs/a.png" ≠ .skipped "/imgs/a.png" reason) ∧
    (∀ (fs2 : String → Bool) (dryRun : Bool)
        (filePath slug newBase basePath contentName : String),
      normComps filePath.data =
        normComps (joinChars (joinChars basePath.data slug.data)
          (newBase.data ++ (splitextChars (basenameChars filePath.data)).2)) →
      reorganizeWorker fs2 dryRun filePath slug newBase basePath contentName =
        .success
          ⟨joinChars ("/content/".data ++ contentName.data)
            (relpathChars filePath.data basePath.data)⟩
          ⟨joinChars ("/content/".data ++ contentName.data)
            (relpathChars (joinChars (joinChars basePath.data slug.data)
              (newBase.data ++ (splitextChars (basenameChars filePath.data)).2))
              basePath.data)⟩) ∧
    reorganizeWorker (fun _ => false) false "/imgs/post/post-1.png" "post" "post-1" "/imgs"
        "images" =
      .success "/content/images/post/post-1.png" "/content/images/post/post-1.png" :=
  have h := C4_rerun_appends_disambiguator
    (fun s => (s == "/imgs/a.png") || (s == "/imgs/a.webp")) "/imgs" []
    "/imgs".data "a".data "png".data (by decide) (by decide) (by decide) (by decide)
    (by decide) (by decide) (by decide) (eq_false (by decide)) "a".data (by decide)
    (by decide) (by decide)
  ⟨h.1, h.2.1, h.2.2,
    h.2.2 (fun _ => false) false "/imgs/post/post-1.png" "post" "post-1" "/imgs" "images"
      (by decide)⟩

/-- C6: the unused-image membership check tries the exact stripped identity
first; only when that fails, and only for a stem ending in `_o`, the
`_o`-stripped identity is additionally tried; a stem without `_o` falls
through to unused, so the aliasing never runs in the reverse direction.
The concrete conjuncts exhibit the direction: `a_o.png` matches an entry
keyed `a.png`, an exact `a_o.png` entry wins, and `a.png` never matches an
entry keyed `a_o.png`. -/
theorem C6_alias_fallback_directional (baseUsed : List String) (p : String) :
    (baseUsed.contains (⟨cleanupBase p.data⟩ : String) = true →
      isUsedImage baseUsed p = true) ∧
    (baseUsed.contains (⟨cleanupBase p.data⟩ : String) = false →
      endsWithChars (lowerChars (splitextChars (afterLastSlash (cleanupBase p.data))).1)
        "_o".data = true →
      isUsedImage baseUsed p =
        baseUsed.contains
          (⟨replaceAll ['\\'] ['/']
            (joinChars (dirnameChars (cleanupBase p.data))
              ((splitextChars (afterLastSlash (cleanupBase p.data))).1.dropLast.dropLast ++
                (splitextChars (afterLastSlash (cleanupBase p.data))).2))⟩ : String)) ∧
    (baseUsed.contains (⟨cleanupBase p.data⟩ : String) = false →
      endsWithChars (lowerChars (splitextChars (afterLastSlash (cleanupBase p.data))).1)
        "_o".data = false →
      isUsedImage baseUsed p = false) ∧
    isUsedImage ["/content/images/a.png"] "/content/images/a_o.png" = true ∧
    isUsedImage ["/content/images/a_o.png", "/content/images/a.png"]
      "/content/images/a_o.png" = true ∧
    isUsedImage ["/content/images/a_o.png"] "/content/images/a.png" = false := by
  refine ⟨?_, ?_, ?_, by decide, by decide, by decide⟩
  · intro hex
    simp only [isUsedImage]
    rw [if_pos hex]
  · intro hex hO
    simp only [isUsedImage]
    rw [if_neg (by simpa using hex), if_pos hO]
  · intro hex hO
    simp only [isUsedImage]
    rw [if_neg (by simpa using hex), if_neg (by simp [hO])]

/-- Witness for C6 at a used set containing only the `_o`-stripped key. -/
theorem C6_alias_fallback_directional_witness :
    (["/content/images/b.png"] : List String).contains
      (⟨cleanupBase "/content/images/b_o.png".data⟩ : String) = false ∧
    endsWithChars
      (lowerChars (splitextChars (afterLastSlash (cleanupBase "/content/images/b_o.png".data))).1)
      "_o".data = true ∧
    isUsedImage ["/content/images/b.png"] "/content/images/b_o.png" =
      (["/content/images/b.png"] : List String).contains
        (⟨replaceAll ['\\'] ['/']
          (joinChars (dirnameChars (cleanupBase "/content/images/b_o.png".data))
            ((splitextChars (afterLastSlash (cleanupBase "/content/images/b_o.png".data))).1.dropLast.dropLast ++
              (splitextChars (afterLastSlash (cleanupBase "/content/images/b_o.png".data))).2))⟩
          : String) :=
  ⟨by decide, by decide,
    (C6_alias_fallback_directional ["/content/images/b.png"] "/content/images/b_o.png").2.1
      (by decide) (by decide)⟩

/-- The lookup phase only short-circuits with the original (decoded) URL:
its `.error` payload is always that URL. -/
theorem lookupPhase_error_eq {original : List Char} {m : ConvMap} {s : List Char}
    (h : lookupPhase original m = .error s) : s = original := by
  simp only [lookupPhase] at h
  split at h
  · exact Except.noConfusion h
  · split at h
    · injection h with h1
      exact h1.symm
    · split at h
      · exact Except.noConfusion h
      · split at h
        · split at h
          · exact Except.noConfusion h
          · exact Except.noConfusion h
        · exact Except.noConfusion h

/-- C10 counterexample: `_process_url` is not total.  A direct map hit on a
URL whose authority has an unclosed bracket reaches the unguarded
`urlparse(original_url)` call (file_handler.py line 58), which raises
`ValueError: Invalid IPv6 URL` out of the function. -/
theorem C10_counterexample_bracket_raises :
    processUrl "http://[x/a" [("http://[x/a", "/content/images/b.webp")] = .error () := by
  decide

/-- C10 (amended): `_process_url` returns the empty URL unchanged; when no
lookup succeeds it returns the percent-decoded input (also when the guarded
`urlparse` raises, whose early return carries exactly the decoded URL); it
is total whenever the decoded input — and, on a hit, the mapped value —
parse without error; and the decoded return differs from the original
spelling when the input contains percent-escapes. -/
theorem C10_processUrl_decoded_fallback (m : ConvMap) (url : String) :
    processUrl "" m = .ok "" ∧
    (url ≠ "" → lookupPhase (unquoteChars url.data) m = .ok none →
      processUrl url m = .ok ⟨unquoteChars url.data⟩) ∧
    (∀ s, url ≠ "" → lookupPhase (unquoteChars url.data) m = .error s →
      processUrl url m = .ok ⟨unquoteChars url.data⟩) ∧
    (url ≠ "" → urlparseM (unquoteChars url.data) ≠ none →
      (∀ nv, lookupPhase (unquoteChars url.data) m = .ok (some nv) →
        nv ≠ "" → urlparseM nv.data ≠ none) →
      ∃ res, processUrl url m = .ok res) ∧
    processUrl "/content/images/a%20b.png" [] = .ok "/content/images/a b.png" ∧
    ("/content/images/a b.png" : String) ≠ "/content/images/a%20b.png" := by
  refine ⟨rfl, ?_, ?_, ?_, by decide, by decide⟩
  · intro hne hl
    simp only [processUrl]
    rw [if_neg hne, hl]
  · intro s hne hl
    have hs := lookupPhase_error_eq hl
    subst hs
    simp only [processUrl]
    rw [if_neg hne, hl]
  · intro hne hp hv
    simp only [processUrl]
    rw [if_neg hne]
    split
    · exact ⟨_, rfl⟩
    · exact ⟨_, rfl⟩
    · rename_i nv hl
      by_cases hnv : nv = ""
      · rw [if_pos hnv]
        exact ⟨_, rfl⟩
      · rw [if_neg hnv]
        split
        · rename_i hpo
          exact absurd hpo hp
        · rename_i po hpo
          split
          · exact ⟨nv, rfl⟩
          · rename_i pfx hsz
            split
            · rename_i hpn
              exact absurd hpn (hv nv hl hnv)
            · rename_i pn hpn
              by_cases hsch : (!pn.scheme.isEmpty) = true
              · rw [if_pos hsch]
                exact ⟨_, rfl⟩
              · rw [if_neg hsch]
                exact ⟨_, rfl⟩

/-- Witness for the amended C10 theorem: the decoded-fallback conjunct at a
no-match map, the raise-path conjunct at the bracket URL, and totality at a
clean hit. -/
theorem C10_processUrl_decoded_fallback_witness :
    processUrl "/content/images/a%20b.png" [("x", "y")] = .ok "/content/images/a b.png" ∧
    processUrl "http://[x/a" [] = .ok "http://[x/a" ∧
    (∃ res, processUrl "/content/images/x.png"
      [("/content/images/x.png", "/content/images/x.webp")] = .ok res) :=
  ⟨(C10_processUrl_decoded_fallback [("x", "y")] "/content/images/a%20b.png").2.1
     (by decide) (by decide),
   (C10_processUrl_decoded_fallback [] "http://[x/a").2.2.1 "http://[x/a".data
     (by decide) (by decide),
   (C10_processUrl_decoded_fallback
       [("/content/images/x.png", "/content/images/x.webp")] "/content/images/x.png").2.2.2.1
     (by decide) (by decide)
     (fun nv hnv hne => by
       have hl : lookupPhase (unquoteChars ("/content/images/x.png" : String).data)
           [("/content/images/x.png", "/content/images/x.webp")] =
           .ok (some "/content/images/x.webp") := by decide
       rw [hl] at hnv
       injection hnv with h1
       injection h1 with h2
       rw [← h2]
       decide)⟩

/-! ## srcset splitting lemmas -/

theorem splitOnChar_no_sep {sep : Char} : ∀ (a : List Char), sep ∉ a →
    splitOnChar sep a = [a]
  | [], _ => rfl
  | c :: cs, h => by
    simp only [List.mem_cons, not_or] at h
    simp only [splitOnChar]
    rw [if_neg (fun hh => h.1 hh.symm), splitOnChar_no_sep cs h.2]

theorem splitOnChar_append {sep : Char} : ∀ (a r : List Char), sep ∉ a →
    splitOnChar sep (a ++ sep :: r) = a :: splitOnChar sep r
  | [], r, _ => by
    simp [splitOnChar]
  | c :: cs, r, h => by
    simp only [List.mem_cons, not_or] at h
    simp only [List.cons_append, splitOnChar, List.append_eq]
    rw [if_neg (fun hh => h.1 hh.symm), splitOnChar_append cs r h.2]

theorem splitOnChar_ne_nil {sep : Char} : ∀ (l : List Char), splitOnChar sep l ≠ []
  | [] => by simp [splitOnChar]
  | c :: cs => by
    simp only [splitOnChar]
    split
    · simp
    · split
      · simp
      · simp

/-- A leading space never survives the per-entry `strip()`: the entry lists
of `' ' :: l` and `l` agree. -/
theorem srcsetEntries_space (l : List Char) :
    srcsetEntries ⟨' ' :: l⟩ = srcsetEntries ⟨l⟩ := by
  simp only [srcsetEntries]
  cases hsp : splitOnChar ',' l with
  | nil => exact absurd hsp (splitOnChar_ne_nil l)
  | cons r rs =>
    have h2 : splitOnChar ',' (' ' :: l) = (' ' :: r) :: rs := by
      simp only [splitOnChar]
      rw [if_neg (by decide), hsp]
    rw [h2]
    simp only [List.filterMap_cons]
    have hstrip : stripWs (' ' :: r) = stripWs r := by
      simp [stripWs, lstripWs, List.dropWhile_cons, isPySpace]
    rw [hstrip]

theorem lstripWs_solid_cons {c : Char} {t : List Char} (h : isPySpace c = false) :
    lstripWs (c :: t) = c :: t := by
  simp [lstripWs, List.dropWhile_cons, h]

theorem stripWs_all_solid {l : List Char} (h : ∀ c ∈ l, isPySpace c = false) :
    stripWs l = l := by
  have h1 : lstripWs l = l := by
    cases l with
    | nil => rfl
    | cons c t => exact lstripWs_solid_cons (h c (by simp))
  have h2 : rstripWs l = l := by
    simp only [rstripWs]
    cases hr : l.reverse with
    | nil =>
      simp only [List.dropWhile_nil, List.reverse_nil]
      exact (List.reverse_eq_nil_iff.mp hr).symm
    | cons c t =>
      have hc : isPySpace c = false := h c (by
        have hm : c ∈ l.reverse := by rw [hr]; simp
        simpa using hm)
      rw [dropWhile_stop hc, ← hr, List.reverse_reverse]
  rw [show stripWs l = rstripWs (lstripWs l) from rfl, h1, h2]

theorem stripWs_url_desc {u d : List Char} (hu : u ≠ [])
    (hus : ∀ c ∈ u, isPySpace c = false) (hd : d ≠ [])
    (hds : ∀ c ∈ d, isPySpace c = false) :
    stripWs (u ++ ' ' :: d) = u ++ ' ' :: d := by
  have h1 : lstripWs (u ++ ' ' :: d) = u ++ ' ' :: d := by
    cases u with
    | nil => exact absurd rfl hu
    | cons c t => exact lstripWs_solid_cons (hus c (by simp))
  have hrev : (u ++ ' ' :: d).reverse = d.reverse ++ ' ' :: u.reverse := by
    simp [List.reverse_append]
  have h2 : rstripWs (u ++ ' ' :: d) = u ++ ' ' :: d := by
    simp only [rstripWs]
    cases hdr : d.reverse with
    | nil => exact absurd (by simpa using congrArg List.reverse hdr) hd
    | cons c t =>
      have hc : isPySpace c = false := hds c (by
        have hm : c ∈ d.reverse := by rw [hdr]; simp
        simpa using hm)
      rw [hrev, hdr, List.cons_append, dropWhile_stop hc, ← List.cons_append, ← hdr,
        ← hrev, List.reverse_reverse]
  rw [show stripWs (u ++ ' ' :: d) = rstripWs (lstripWs (u ++ ' ' :: d)) from rfl, h1, h2]

theorem rsplitSpace_url_desc {u d : List Char} (hd : ' ' ∉ d) :
    rsplitSpace (u ++ ' ' :: d) = (u, some d) := by
  simp only [rsplitSpace]
  rw [if_pos (by simp)]
  have hrev : (u ++ ' ' :: d).reverse = d.reverse ++ ' ' :: u.reverse := by
    simp [List.reverse_append]
  rw [hrev,
    takeWhile_append_all (p := fun c => decide (c ≠ ' '))
      (all_ne_of_not_mem (by simpa using hd)),
    takeWhile_stop (by simp),
    dropWhile_append_all (p := fun c => decide (c ≠ ' '))
      (all_ne_of_not_mem (by simpa using hd)),
    dropWhile_stop (by simp)]
  simp

theorem rsplitSpace_no_space {u : List Char} (hu : ' ' ∉ u) :
    rsplitSpace u = (u, none) := by
  simp only [rsplitSpace]
  rw [if_neg hu]

/-- Entry-level facts used by the srcset theorems. -/
theorem entry_facts {e : List Char × Option (List Char)} (hwf : wfEntry e) :
    stripWs (entryChars e) = entryChars e ∧ (entryChars e).isEmpty = false ∧
      ',' ∉ entryChars e := by
  obtain ⟨hne, hsolid, hdesc⟩ := hwf
  match hE : e.2 with
  | none =>
    simp only [entryChars, hE]
    refine ⟨stripWs_all_solid (fun c hc => (hsolid c hc).1), ?_, ?_⟩
    · cases hc : e.1 with
      | nil => exact absurd hc hne
      | cons c t => simp
    · intro hm
      exact (hsolid ',' hm).2 rfl
  | some d =>
    obtain ⟨hdne, hdsolid⟩ := hdesc d hE
    simp only [entryChars, hE]
    refine ⟨stripWs_url_desc hne (fun c hc => (hsolid c hc).1) hdne
      (fun c hc => (hdsolid c hc).1), ?_, ?_⟩
    · cases hc : e.1 with
      | nil => exact absurd hc hne
      | cons c t => simp
    · intro hm
      rcases List.mem_append.mp hm with hm | hm
      · exact (hsolid ',' hm).2 rfl
      · rcases List.mem_cons.mp hm with hm | hm
        · exact absurd hm.symm (by decide)
        · exact (hdsolid ',' hm).2 rfl

/-- The entry list recovered from a well-formed joined srcset is exactly
the rendered entry list: split on commas, strip, drop empties. -/
theorem srcsetEntries_join : ∀ (es : List (List Char × Option (List Char))),
    (∀ e ∈ es, wfEntry e) →
    srcsetEntries ⟨joinCommaSpace (es.map entryChars)⟩ = es.map entryChars
  | [], _ => rfl
  | [e], h => by
    obtain ⟨hstrip, hne, hnc⟩ := entry_facts (h e (by simp))
    simp only [List.map_cons, List.map_nil, joinCommaSpace, List.intersperse_singleton,
      List.flatten_cons, List.flatten_nil, List.append_nil]
    simp only [srcsetEntries]
    rw [splitOnChar_no_sep (entryChars e) hnc]
    simp only [List.filterMap_cons, List.filterMap_nil, hstrip, hne]
    rfl
  | e :: e2 :: rest, h => by
    obtain ⟨hstrip, hne, hnc⟩ := entry_facts (h e (by simp))
    have hjoin : joinCommaSpace ((e :: e2 :: rest).map entryChars) =
        entryChars e ++ ',' :: ' ' :: joinCommaSpace ((e2 :: rest).map entryChars) := by
      simp [joinCommaSpace, List.intersperse]
    rw [hjoin]
    have hsplit := @splitOnChar_append ',' (entryChars e)
      (' ' :: joinCommaSpace ((e2 :: rest).map entryChars)) hnc
    simp only [srcsetEntries] at hsplit ⊢
    rw [hsplit]
    simp only [List.filterMap_cons, hstrip, hne]
    have htail := srcsetEntries_space (joinCommaSpace ((e2 :: rest).map entryChars))
    simp only [srcsetEntries] at htail
    rw [htail]
    have hrec := srcsetEntries_join (e2 :: rest) (fun x hx => h x (by simp [hx]))
    simp only [srcsetEntries] at hrec
    rw [hrec]
    simp

/-- The last-space split recovers the url and descriptor of a well-formed
entry. -/
theorem rsplitSpace_entry {e : List Char × Option (List Char)} (hwf : wfEntry e) :
    rsplitSpace (entryChars e) = (e.1, e.2) := by
  obtain ⟨hne, hsolid, hdesc⟩ := hwf
  have hns : ' ' ∉ e.1 := fun hm => by
    have hsp := (hsolid ' ' hm).1
    simp [isPySpace] at hsp
  match hE : e.2 with
  | none =>
    simp only [entryChars, hE]
    exact rsplitSpace_no_space hns
  | some d =>
    obtain ⟨hdne, hdsolid⟩ := hdesc d hE
    have hds : ' ' ∉ d := fun hm => by
      have hsp := (hdsolid ' ' hm).1
      simp [isPySpace] at hsp
    simp only [entryChars, hE]
    exact rsplitSpace_url_desc hds

theorem mapM_entry_eq (m : ConvMap) : ∀ (es : List (List Char × Option (List Char))),
    (∀ e ∈ es, wfEntry e) →
    (es.map entryChars).mapM (fun p => do
      let ud := rsplitSpace p
      let nu ← processUrl ⟨ud.1⟩ m
      pure (renderEntry nu ud.2)) =
    es.mapM (fun e => do
      let nu ← processUrl ⟨e.1⟩ m
      pure (renderEntry nu e.2))
  | [], _ => rfl
  | e :: tl, h => by
    have hsplit := rsplitSpace_entry (h e (by simp))
    simp only [List.map_cons, List.mapM_cons, hsplit]
    rw [mapM_entry_eq m tl (fun x hx => h x (by simp [hx]))]

/-- C9 counterexample: an api-side srcset entry whose url matches no map
key does not keep that url unchanged — `_process_url` returns its
percent-decoded form, so the rewritten srcset differs from the input even
under the empty map. -/
theorem C9_counterexample_decoded_url :
    rewriteSrcsetApi [] "/content/images/a%20b.png 1x" =
      .ok "/content/images/a b.png 1x" ∧
    ("/content/images/a b.png 1x" : String) ≠ "/content/images/a%20b.png 1x" :=
  ⟨by decide, by decide⟩

/-- C9 (amended): on a well-formed srcset — comma-joined entries, each a
space-free url optionally followed by one descriptor — both rewriters
split on commas, split each entry at the last space, rewrite the url
component independently, and rejoin with `", "` preserving entry order and
descriptors; the db rewriter keeps a no-match url unchanged, while the api
rewriter (per the counterexample) yields the decoded url. -/
theorem C9_srcset_rewrite (m : ConvMap) :
    (∀ es : List (List Char × Option (List Char)), (∀ e ∈ es, wfEntry e) →
      rewriteSrcsetApi m ⟨joinCommaSpace (es.map entryChars)⟩ =
        (es.mapM (fun e : List Char × Option (List Char) => (do
          let nu ← processUrl ⟨e.1⟩ m
          pure (renderEntry nu e.2) : Except Unit (List Char)))).map
          (fun rs => (⟨joinCommaSpace rs⟩ : String))) ∧
    (∀ es : List (List Char × Option (List Char)), (∀ e ∈ es, wfEntry e) →
      rewriteSrcsetDb m ⟨joinCommaSpace (es.map entryChars)⟩ =
        ⟨joinCommaSpace (es.map
          (fun e => renderEntry (processImageUrl ⟨e.1⟩ m) e.2))⟩) ∧
    (∀ url : String, leadsWith "__GHOST_URL__".data url.data = false →
      sizeSegMatch url.data = none → lookupMap m url = none →
      processImageUrl url m = url) := by
  refine ⟨?_, ?_, ?_⟩
  · intro es h
    simp only [rewriteSrcsetApi, srcsetEntries_join es h]
    rw [mapM_entry_eq m es h]
    have hbind : ∀ (x : Except Unit (List (List Char))),
        (x >>= fun rendered => pure (⟨joinCommaSpace rendered⟩ : String)) =
          x.map (fun rs => (⟨joinCommaSpace rs⟩ : String)) := by
      intro x
      cases x <;> rfl
    exact hbind _
  · intro es h
    simp only [rewriteSrcsetDb, srcsetEntries_join es h, List.map_map]
    congr 2
    apply List.map_congr_left
    intro e he
    have hsplit := rsplitSpace_entry (h e he)
    simp [Function.comp, hsplit]
  · intro url hng hsz hlk
    by_cases he : url = ""
    · simp only [processImageUrl]
      rw [if_pos he]
    · simp only [processImageUrl]
      rw [if_neg he, if_neg (by simp [hng]), if_neg (by simp [hng]), hsz]
      have hlk2 : lookupMap m ⟨url.data⟩ = none := hlk
      rw [hlk2]

/-- Witness for the amended C9 theorem at a two-entry srcset with one map
hit, and the db no-match identity at a clean url. -/
theorem C9_srcset_rewrite_witness :
    rewriteSrcsetApi [("/content/images/p.png", "/content/images/p.webp")]
        "/content/images/p.png 1x, /content/images/q.png" =
      .ok "/content/images/p.webp 1x, /content/images/q.png" ∧
    rewriteSrcsetDb [("/content/images/p.png", "/content/images/p.webp")]
        "/content/images/p.png 1x, /content/images/q.png" =
      "/content/images/p.webp 1x, /content/images/q.png" ∧
    processImageUrl "/content/images/q.png"
        [("/content/images/p.png", "/content/images/p.webp")] =
      "/content/images/q.png" :=
  have hwf : ∀ e ∈ ([("/content/images/p.png".data, some "1x".data),
      ("/content/images/q.png".data, (none : Option (List Char)))] :
      List (List Char × Option (List Char))), wfEntry e := by
    intro e he
    simp only [List.mem_cons, List.not_mem_nil, or_false] at he
    rcases he with rfl | rfl
    · exact ⟨by decide, by decide, fun d hd => by
        injection hd with h1
        subst h1
        exact ⟨by decide, by decide⟩⟩
    · exact ⟨by decide, by decide, fun d hd => Option.noConfusion hd⟩
  ⟨(C9_srcset_rewrite [("/content/images/p.png", "/content/images/p.webp")]).1 _ hwf,
   (C9_srcset_rewrite [("/content/images/p.png", "/content/images/p.webp")]).2.1 _ hwf,
   (C9_srcset_rewrite [("/content/images/p.png", "/content/images/p.webp")]).2.2
     "/content/images/q.png" (by decide) (by decide) (by decide)⟩

/-! ## reorganize planning lemmas -/

/-- The content-image planning loop assigns ordinals by position: on files
none of which were already processed and with no internal duplicates, the
`j`-th entry is the `j`-th file named with ordinal `counter + j + 1`. -/
theorem planContentImages_ordinals (slug ip : String) :
    ∀ (files : List String) (counter : Nat) (gproc : List String),
    files.Nodup → (∀ f ∈ files, f ∉ gproc) → ∀ j : Nat,
    (planContentImages slug ip counter gproc files)[j]? =
      files[j]?.map (fun f => plannedEntry slug ip (counter + j + 1) f)
  | [], counter, gproc, _, _, j => by simp [planContentImages]
  | f :: rest, counter, gproc, hnd, hdisj, j => by
    have hmem : f ∉ gproc := hdisj f (by simp)
    rw [List.nodup_cons] at hnd
    simp only [planContentImages]
    rw [if_neg (by simpa using hmem)]
    cases j with
    | zero => simp [plannedEntry]
    | succ j =>
      rw [List.getElem?_cons_succ, List.getElem?_cons_succ,
        planContentImages_ordinals slug ip rest (counter + 1) (gproc ++ [f]) hnd.2
          (fun x hx => by
            simp only [List.mem_append, List.mem_cons, List.not_mem_nil, or_false, not_or]
            exact ⟨hdisj x (List.mem_cons_of_mem f hx), fun hxf => hnd.1 (hxf ▸ hx)⟩) j,
        show counter + 1 + j + 1 = counter + (j + 1) + 1 from by omega]

/-- Forward evaluation of the feature-image planner: a feature reference
that resolves to an existing, not-yet-processed original `fp` is planned
as `{root}/{slug}/feature_image{ext}` and `fp` is registered as globally
processed. -/
theorem planFeature_eval (fs : String → Bool) (slug ip : String) (gproc : List String)
    (f0 : String) (pu : UrlParts)
    (hne : (f0 = "") = False)
    (hpu : urlparseM (replaceAll "__GHOST_URL__".data [] f0.data) = some pu)
    (hlead : leadsWith "/content/images/".data pu.path = true)
    (hfs : fs ⟨joinChars ip.data (pu.path.drop 16)⟩ = true)
    (hgp : gproc.contains (⟨joinChars ip.data (pu.path.drop 16)⟩ : String)
      = false) :
    planFeature fs slug ip gproc (some f0) =
      .ok (some
        (⟨joinChars "/content/images".data
          (relpathChars (joinChars ip.data (pu.path.drop 16)) ip.data)⟩,
         (⟨joinChars "/content/images".data (relpathChars
           (joinChars (joinChars ip.data slug.data)
             ("feature_image".data ++
               (splitextChars (basenameChars
                 (joinChars ip.data (pu.path.drop 16)))).2))
           ip.data)⟩ : String)),
        gproc ++ [⟨joinChars ip.data (pu.path.drop 16)⟩]) := by
  simp only [planFeature, hne, hpu, hlead, hfs, hgp, Bool.not_false, Bool.and_self,
    if_false, if_true]
  rfl

/-- Invariant of the body-reference resolution fold: the accumulated
original list stays duplicate-free and consists of existing files. -/
theorem orderedOriginals_aux (fs : String → Bool) (ip : String) :
    ∀ (urls : List String) (acc : List String), acc.Nodup →
    (∀ f ∈ acc, fs f = true) → ∀ res : List String,
    urls.foldlM
      (fun acc url => (do
        let u := replaceAll "__GHOST_URL__".data [] url.data
        match urlparseM u with
        | none => Except.error ()
        | some pu =>
          let bp := reorgBase pu.path
          if leadsWith "/content/images/".data bp then
            let fp : String := ⟨joinChars ip.data (bp.drop 16)⟩
            if fs fp && !acc.contains fp then pure (acc ++ [fp]) else pure acc
          else pure acc : Except Unit (List String))) acc = .ok res →
    res.Nodup ∧ ∀ f ∈ res, fs f = true
  | [], acc, hnd, hall, res, h => by
    have h2 := Except.ok.inj h
    subst h2
    exact ⟨hnd, hall⟩
  | u :: rest, acc, hnd, hall, res, h => by
    simp only [List.foldlM_cons] at h
    cases hpu : urlparseM (replaceAll "__GHOST_URL__".data [] u.data) with
    | none =>
      simp only [hpu] at h
      have h2 : (Except.error () : Except Unit (List String)) = .ok res := h
      exact Except.noConfusion h2
    | some pu =>
      simp only [hpu] at h
      by_cases hlead : leadsWith "/content/images/".data (reorgBase pu.path) = true
      · rw [if_pos hlead] at h
        by_cases hcond : (fs ⟨joinChars ip.data ((reorgBase pu.path).drop 16)⟩ &&
            !acc.contains (⟨joinChars ip.data ((reorgBase pu.path).drop 16)⟩ : String))
            = true
        · rw [if_pos hcond] at h
          rw [Bool.and_eq_true] at hcond
          have hfp : (⟨joinChars ip.data ((reorgBase pu.path).drop 16)⟩ : String) ∉ acc := by
            have hc2 := hcond.2
            simp only [Bool.not_eq_eq_eq_not, Bool.not_true] at hc2
            simpa using hc2
          exact orderedOriginals_aux fs ip rest _
            (by
              rw [List.nodup_append]
              exact ⟨hnd, by simp, by simpa using hfp⟩)
            (fun f hf => by
              rcases List.mem_append.mp hf with hf | hf
              · exact hall f hf
              · rcases List.mem_cons.mp hf with hf | hf
                · exact hf ▸ hcond.1
                · exact absurd hf (List.not_mem_nil f)) res h
        · rw [if_neg hcond] at h
          exact orderedOriginals_aux fs ip rest acc hnd hall res h
      · rw [if_neg hlead] at h
        exact orderedOriginals_aux fs ip rest acc hnd hall res h

/-- C7 counterexample: the feature image is not named `{slug}-{ordinal}`:
the plan for a post with feature `f.png` and body image `b.png` names the
feature `feature_image.png` while the first body image gets `post-1.png`. -/
theorem C7_counterexample_feature_name :
    analyzePostPlan (fun s => (s == "/imgs/f.png") || (s == "/imgs/b.png")) "/imgs" []
        { slug := "post", featureImage := some "/content/images/f.png",
          imgs := [{ src := some "/content/images/b.png", srcset := none }] } =
      .ok [("/content/images/f.png", "/content/images/post/feature_image.png"),
           ("/content/images/b.png", "/content/images/post/post-1.png")] ∧
    ("/content/images/post/feature_image.png" : String) ≠
      "/content/images/post/post-1.png" :=
  ⟨by decide, by decide⟩

/-- C7 (amended): under the relocate policy a planned body image receives
`{root}/{slug}/{slug}-{ordinal}{_o-suffix}{original-extension}` where the
ordinal counts first encounters in order (duplicates collapse because the
resolved reference list is duplicate-free and processed files are
skipped); the feature image, planned before body references, is instead
named `{root}/{slug}/feature_image{original-extension}`. -/
theorem C7_relocate_naming (slug ip : String) :
    (∀ (files : List String) (counter : Nat) (gproc : List String),
      files.Nodup → (∀ f ∈ files, f ∉ gproc) → ∀ j : Nat,
      (planContentImages slug ip counter gproc files)[j]? =
        files[j]?.map (fun f => plannedEntry slug ip (counter + j + 1) f)) ∧
    (∀ (fs : String → Bool) (gproc : List String) (f0 : String) (pu : UrlParts),
      (f0 = "") = False →
      urlparseM (replaceAll "__GHOST_URL__".data [] f0.data) = some pu →
      leadsWith "/content/images/".data pu.path = true →
      fs ⟨joinChars ip.data (pu.path.drop 16)⟩ = true →
      gproc.contains (⟨joinChars ip.data (pu.path.drop 16)⟩ : String) = false →
      planFeature fs slug ip gproc (some f0) =
        .ok (some
          (⟨joinChars "/content/images".data
            (relpathChars (joinChars ip.data (pu.path.drop 16)) ip.data)⟩,
           (⟨joinChars "/content/images".data (relpathChars
             (joinChars (joinChars ip.data slug.data)
               ("feature_image".data ++
                 (splitextChars (basenameChars
                   (joinChars ip.data (pu.path.drop 16)))).2))
             ip.data)⟩ : String)),
          gproc ++ [⟨joinChars ip.data (pu.path.drop 16)⟩])) ∧
    (∀ (fs : String → Bool) (urls : List String) (res : List String),
      orderedOriginals fs ip urls = .ok res →
      res.Nodup ∧ ∀ f ∈ res, fs f = true) :=
  ⟨planContentImages_ordinals slug ip,
   fun fs gproc f0 pu h1 h2 h3 h4 h5 => planFeature_eval fs slug ip gproc f0 pu h1 h2 h3 h4 h5,
   fun fs urls res h => orderedOriginals_aux fs ip urls [] (by simp) (by simp) res h⟩

/-- Witness for the amended C7 theorem: second body image gets ordinal 2
with its `_o` suffix preserved; a concrete feature plan resolves to
`feature_image.png`; a duplicated reference list collapses. -/
theorem C7_relocate_naming_witness :
    (planContentImages "post" "/imgs" 0 [] ["/imgs/b.png", "/imgs/c_o.png"])[1]? =
      (["/imgs/b.png", "/imgs/c_o.png"] : List String)[1]?.map
        (fun f => plannedEntry "post" "/imgs" 2 f) ∧
    planFeature (fun s => s == "/imgs/f.png") "post" "/imgs" []
        (some "/content/images/f.png") =
      .ok (some ("/content/images/f.png", "/content/images/post/feature_image.png"),
        ["/imgs/f.png"]) ∧
    ((["/imgs/b.png"] : List String).Nodup ∧
      ∀ f ∈ (["/imgs/b.png"] : List String),
        (fun s => s == ("/imgs/b.png" : String)) f = true) :=
  ⟨(C7_relocate_naming "post" "/imgs").1 ["/imgs/b.png", "/imgs/c_o.png"] 0 []
     (by decide) (by intro f hf; simp) 1,
   (C7_relocate_naming "post" "/imgs").2.1 (fun s => s == "/imgs/f.png") []
     "/content/images/f.png" ⟨[], [], "/content/images/f.png".data, [], [], []⟩
     (eq_false (by decide)) (by decide) (by decide) (by decide) (by decide),
   (C7_relocate_naming "post" "/imgs").2.2 (fun s => s == "/imgs/b.png")
     ["/content/images/b.png", "/content/images/b.png"] ["/imgs/b.png"] (by decide)⟩

/-! ## Item rewriting: change-flag semantics -/

theorem except_bind_ok {α β : Type} {x : Except Unit α} {f : α → Except Unit β} {r : β}
    (h : (x >>= f) = .ok r) : ∃ a, x = .ok a ∧ f a = .ok r := by
  cases x with
  | error e =>
    have h2 : (Except.error e : Except Unit β) = .ok r := h
    exact Except.noConfusion h2
  | ok a => exact ⟨a, rfl, h⟩

/-- Common final step of the per-tag flag analysis: the rebuilt tag
differs from `t` exactly when one of the component flags is set. -/
theorem rewriteTag_finish (t t2 : MediaTag) (b : Bool)
    (y y1 : Option String × Bool) (srcs : List String)
    (hyF : (y.2 = true → y.1 ≠ t.src) ∧ (y.2 = false → y.1 = t.src))
    (hy1F : (y1.2 = true → y1.1 ≠ t.srcset) ∧ (y1.2 = false → y1.1 = t.srcset))
    (h : (Except.ok ({ name := t.name, src := y.1, srcset := y1.1, sources := srcs },
        (y.2 || y1.2 || (srcs != t.sources))) : Except Unit (MediaTag × Bool))
      = .ok (t2, b)) :
    (b = true → t2 ≠ t) ∧ (b = false → t2 = t) := by
  have h2 := Except.ok.inj h
  have ht2 : t2 = { name := t.name, src := y.1, srcset := y1.1, sources := srcs } :=
    (congrArg Prod.fst h2).symm
  have hb : b = (y.2 || y1.2 || (srcs != t.sources)) := (congrArg Prod.snd h2).symm
  constructor
  · intro hbt he
    rw [hb] at hbt
    rw [ht2] at he
    rw [Bool.or_eq_true] at hbt
    rcases hbt with hbt2 | hone
    · rw [Bool.or_eq_true] at hbt2
      rcases hbt2 with hone | hone
      · exact hyF.1 hone (by rw [← he])
      · exact hy1F.1 hone (by rw [← he])
    · have hne : srcs ≠ t.sources := by simpa using hone
      exact hne (by rw [← he])
  · intro hbf
    rw [hb] at hbf
    simp only [Bool.or_eq_false_iff] at hbf
    obtain ⟨⟨h1, h2f⟩, h3f⟩ := hbf
    have hsq : srcs = t.sources := by simpa using h3f
    rw [ht2, hyF.2 h1, hy1F.2 h2f, hsq]

/-- Per-tag change flag: it is set exactly when the rewritten tag differs
from the original. -/
theorem rewriteTag_flag (m : ConvMap) (t t2 : MediaTag) (b : Bool)
    (h : rewriteTag m t = .ok (t2, b)) :
    (b = true → t2 ≠ t) ∧ (b = false → t2 = t) := by
  simp only [rewriteTag] at h
  cases hts : t.src with
  | none =>
    simp only [hts] at h
    obtain ⟨y, hy, h⟩ := except_bind_ok h
    have hyv := (Except.ok.inj hy).symm
    subst hyv
    have hyF : (((none, false) : Option String × Bool).2 = true →
        ((none, false) : Option String × Bool).1 ≠ t.src) ∧
        (((none, false) : Option String × Bool).2 = false →
        ((none, false) : Option String × Bool).1 = t.src) :=
      ⟨fun hh => absurd hh (by simp), fun _ => hts.symm⟩
    cases hts2 : t.srcset with
    | none =>
      simp only [hts2] at h
      obtain ⟨y1, hy1, h⟩ := except_bind_ok h
      have hy1v := (Except.ok.inj hy1).symm
      subst hy1v
      obtain ⟨srcs, hsrcs, h⟩ := except_bind_ok h
      exact rewriteTag_finish t t2 b _ _ srcs hyF
        ⟨fun hh => absurd hh (by simp), fun _ => hts2.symm⟩ h
    | some ss =>
      simp only [hts2] at h
      by_cases hn : t.name = "img"
      · rw [if_pos hn] at h
        obtain ⟨ns, hns, h⟩ := except_bind_ok h
        obtain ⟨y1, hy1, h⟩ := except_bind_ok h
        have hy1v := (Except.ok.inj hy1).symm
        subst hy1v
        obtain ⟨srcs, hsrcs, h⟩ := except_bind_ok h
        refine rewriteTag_finish t t2 b _ _ srcs hyF ⟨?_, ?_⟩ h
        · intro hh he
          exact (show ns ≠ ss by simpa using hh) (Option.some.inj (he.trans hts2))
        · intro hh
          rw [show ns = ss from by simpa using hh, hts2]
      · rw [if_neg hn] at h
        obtain ⟨y1, hy1, h⟩ := except_bind_ok h
        have hy1v := (Except.ok.inj hy1).symm
        subst hy1v
        obtain ⟨srcs, hsrcs, h⟩ := except_bind_ok h
        exact rewriteTag_finish t t2 b _ _ srcs hyF
          ⟨fun hh => absurd hh (by simp), fun _ => hts2.symm⟩ h
  | some s =>
    simp only [hts] at h
    obtain ⟨ns0, hns0, h⟩ := except_bind_ok h
    obtain ⟨y, hy, h⟩ := except_bind_ok h
    have hyv := (Except.ok.inj hy).symm
    subst hyv
    have hyF : (((some ns0, ns0 != s) : Option String × Bool).2 = true →
        ((some ns0, ns0 != s) : Option String × Bool).1 ≠ t.src) ∧
        (((some ns0, ns0 != s) : Option String × Bool).2 = false →
        ((some ns0, ns0 != s) : Option String × Bool).1 = t.src) := by
      constructor
      · intro hh he
        exact (show ns0 ≠ s by simpa using hh) (Option.some.inj (he.trans hts))
      · intro hh
        rw [show ns0 = s from by simpa using hh, hts]
    cases hts2 : t.srcset with
    | none =>
      simp only [hts2] at h
      obtain ⟨y1, hy1, h⟩ := except_bind_ok h
      have hy1v := (Except.ok.inj hy1).symm
      subst hy1v
      obtain ⟨srcs, hsrcs, h⟩ := except_bind_ok h
      exact rewriteTag_finish t t2 b _ _ srcs hyF
        ⟨fun hh => absurd hh (by simp), fun _ => hts2.symm⟩ h
    | some ss =>
      simp only [hts2] at h
      by_cases hn : t.name = "img"
      · rw [if_pos hn] at h
        obtain ⟨ns, hns, h⟩ := except_bind_ok h
        obtain ⟨y1, hy1, h⟩ := except_bind_ok h
        have hy1v := (Except.ok.inj hy1).symm
        subst hy1v
        obtain ⟨srcs, hsrcs, h⟩ := except_bind_ok h
        refine rewriteTag_finish t t2 b _ _ srcs hyF ⟨?_, ?_⟩ h
        · intro hh he
          exact (show ns ≠ ss by simpa using hh) (Option.some.inj (he.trans hts2))
        · intro hh
          rw [show ns = ss from by simpa using hh, hts2]
      · rw [if_neg hn] at h
        obtain ⟨y1, hy1, h⟩ := except_bind_ok h
        have hy1v := (Except.ok.inj hy1).symm
        subst hy1v
        obtain ⟨srcs, hsrcs, h⟩ := except_bind_ok h
        exact rewriteTag_finish t t2 b _ _ srcs hyF
          ⟨fun hh => absurd hh (by simp), fun _ => hts2.symm⟩ h

/-- The pool of tag rewrites: some flag is set iff the rewritten tag list
differs, and an all-clear flag list reproduces the input tags. -/
theorem mapM_tags_flag (m : ConvMap) : ∀ (tags : List MediaTag)
    (pairs : List (MediaTag × Bool)),
    tags.mapM (rewriteTag m) = .ok pairs →
    (pairs.any (fun p => p.2) = true → pairs.map (fun p => p.1) ≠ tags) ∧
    (pairs.any (fun p => p.2) = false → pairs.map (fun p => p.1) = tags)
  | [], pairs, h => by
    have h2 := Except.ok.inj h
    rw [← h2]
    exact ⟨fun hh => absurd hh (by simp), fun _ => rfl⟩
  | t :: rest, pairs, h => by
    rw [List.mapM_cons] at h
    obtain ⟨p, hp, h⟩ := except_bind_ok h
    obtain ⟨ps, hps, h⟩ := except_bind_ok h
    have h2 := Except.ok.inj h
    rw [← h2]
    have htag := rewriteTag_flag m t p.1 p.2 hp
    have hrest := mapM_tags_flag m rest ps hps
    constructor
    · intro hany he
      simp only [List.any_cons, Bool.or_eq_true] at hany
      rw [List.map_cons] at he
      injection he with he1 he2
      rcases hany with hany | hany
      · exact htag.1 hany he1
      · exact hrest.1 hany he2
    · intro hany
      simp only [List.any_cons, Bool.or_eq_false_iff] at hany
      rw [List.map_cons, htag.2 hany.1, hrest.2 hany.2]

/-- Item-level change flag: `changed = true` exactly when the returned item
differs from the input; an unchanged item is returned as the same value. -/
theorem rewriteItemApi_flag (m : ConvMap) (it : ContentItem) (out : ContentItem × Bool)
    (h : rewriteItemApi m it = .ok out) : (out.2 = true ↔ out.1 ≠ it) := by
  simp only [rewriteItemApi] at h
  obtain ⟨pairs, hp, h⟩ := except_bind_ok h
  have htags := mapM_tags_flag m it.tags pairs hp
  cases hfi : it.featureImage with
  | none =>
    simp only [hfi] at h
    obtain ⟨y, hy, h⟩ := except_bind_ok h
    have hyv := (Except.ok.inj hy).symm
    subst hyv
    by_cases hch : ((pairs.any fun p => p.2) ||
        ((none, false) : Option String × Bool).2) = true
    · rw [if_pos hch] at h
      have h2 := (Except.ok.inj h).symm
      rw [h2]
      simp only [true_iff]
      intro he
      rw [Bool.or_eq_true] at hch
      rcases hch with hone | hone
      · exact htags.1 hone (congrArg ContentItem.tags he)
      · exact absurd hone (by simp)
    · rw [if_neg hch] at h
      have h2 := (Except.ok.inj h).symm
      rw [h2]
      simp
  | some f =>
    simp only [hfi] at h
    obtain ⟨nf, hnf, h⟩ := except_bind_ok h
    obtain ⟨y, hy, h⟩ := except_bind_ok h
    have hyv := (Except.ok.inj hy).symm
    subst hyv
    by_cases hch : ((pairs.any fun p => p.2) ||
        ((some nf, nf != f) : Option String × Bool).2) = true
    · rw [if_pos hch] at h
      have h2 := (Except.ok.inj h).symm
      rw [h2]
      simp only [true_iff]
      intro he
      rw [Bool.or_eq_true] at hch
      rcases hch with hone | hone
      · exact htags.1 hone (congrArg ContentItem.tags he)
      · have hne : nf ≠ f := by simpa using hone
        exact hne (Option.some.inj ((congrArg ContentItem.featureImage he).trans hfi))
    · rw [if_neg hch] at h
      have h2 := (Except.ok.inj h).symm
      rw [h2]
      simp

/-- Under the empty map the lookup phase either re-raises with the decoded
URL or finds nothing. -/
theorem lookupPhase_nil (original : List Char) :
    lookupPhase original [] = .error original ∨ lookupPhase original [] = .ok none := by
  simp only [lookupPhase, lookupMap, List.find?_nil]
  split
  · exact Or.inl rfl
  · split
    · exact Or.inr rfl
    · exact Or.inr rfl

/-- `_process_url` under the empty map returns exactly the percent-decoded
input. -/
theorem processUrl_empty_map (u : String) :
    processUrl u [] = .ok ⟨unquoteChars u.data⟩ := by
  by_cases he : u = ""
  · subst he
    rfl
  · simp only [processUrl]
    rw [if_neg he]
    rcases lookupPhase_nil (unquoteChars u.data) with hl | hl
    · rw [hl]
    · rw [hl]

theorem mapM_processUrl_nil : ∀ (ls : List String),
    (∀ s ∈ ls, unquoteChars s.data = s.data) →
    ls.mapM (fun s => processUrl s []) = .ok ls
  | [], _ => rfl
  | s :: rest, h => by
    have hs : processUrl s [] = .ok s := by
      rw [processUrl_empty_map s, h s (by simp)]
    rw [List.mapM_cons, hs, mapM_processUrl_nil rest (fun x hx => h x (by simp [hx]))]
    rfl

theorem except_ok_bind {α β : Type} (a : α) (f : α → Except Unit β) :
    (Except.ok a >>= f) = f a := rfl

theorem except_pure_bind {α β : Type} (a : α) (f : α → Except Unit β) :
    ((pure a : Except Unit α) >>= f) = f a := rfl

/-- A tag whose urls are decode-fixed and whose srcset round-trips is left
untouched by the empty map, with a clear change flag. -/
theorem rewriteTag_nil (t : MediaTag)
    (hsrc : ∀ s, t.src = some s → unquoteChars s.data = s.data)
    (hss : ∀ ss, t.srcset = some ss → rewriteSrcsetApi [] ss = .ok ss)
    (hsrcs : ∀ s ∈ t.sources, unquoteChars s.data = s.data) :
    rewriteTag [] t = .ok (t, false) := by
  obtain ⟨tn, tsrc, tss, tsources⟩ := t
  simp only [rewriteTag]
  have hms := mapM_processUrl_nil tsources hsrcs
  cases tsrc with
  | none =>
    cases tss with
    | none =>
      simp only [except_ok_bind, except_pure_bind]
      rw [hms]
      simp [except_ok_bind, bne_self_eq_false]
    | some ss =>
      have hss2 := hss ss rfl
      by_cases hn : tn = "img"
      · simp only [except_ok_bind, except_pure_bind]
        rw [if_pos hn, hss2, hms]
        simp [except_ok_bind, except_pure_bind, bne_self_eq_false]
      · simp only [except_ok_bind, except_pure_bind]
        rw [if_neg hn, hms]
        simp [except_ok_bind, except_pure_bind, bne_self_eq_false]
  | some s =>
    have hs : processUrl s [] = .ok s := by
      rw [processUrl_empty_map s, hsrc s rfl]
    cases tss with
    | none =>
      simp only [except_ok_bind, except_pure_bind]
      rw [hs]
      simp only [except_ok_bind, except_pure_bind]
      rw [hms]
      simp [except_ok_bind, except_pure_bind, bne_self_eq_false]
    | some ss =>
      have hss2 := hss ss rfl
      by_cases hn : tn = "img"
      · simp only [except_ok_bind, except_pure_bind]
        rw [hs]
        simp only [except_ok_bind, except_pure_bind]
        rw [if_pos hn, hss2, hms]
        simp [except_ok_bind, except_pure_bind, bne_self_eq_false]
      · simp only [except_ok_bind, except_pure_bind]
        rw [hs]
        simp only [except_ok_bind, except_pure_bind]
        rw [if_neg hn, hms]
        simp [except_ok_bind, except_pure_bind, bne_self_eq_false]

theorem mapM_rewriteTag_nil : ∀ (tags : List MediaTag),
    (∀ t ∈ tags, (∀ s, t.src = some s → unquoteChars s.data = s.data) ∧
      (∀ ss, t.srcset = some ss → rewriteSrcsetApi [] ss = .ok ss) ∧
      (∀ s ∈ t.sources, unquoteChars s.data = s.data)) →
    tags.mapM (rewriteTag []) = .ok (tags.map (fun t => (t, false)))
  | [], _ => rfl
  | t :: rest, h => by
    obtain ⟨h1, h2, h3⟩ := h t (by simp)
    rw [List.mapM_cons, rewriteTag_nil t h1 h2 h3,
      mapM_rewriteTag_nil rest (fun x hx => h x (by simp [hx]))]
    rfl

/-- An item whose references are decode-fixed (and whose srcsets
round-trip) is returned byte-identical with `changed = false` under the
empty map. -/
theorem rewriteItemApi_nil (it : ContentItem)
    (hfeat : ∀ f, it.featureImage = some f → unquoteChars f.data = f.data)
    (htags : ∀ t ∈ it.tags, (∀ s, t.src = some s → unquoteChars s.data = s.data) ∧
      (∀ ss, t.srcset = some ss → rewriteSrcsetApi [] ss = .ok ss) ∧
      (∀ s ∈ t.sources, unquoteChars s.data = s.data)) :
    rewriteItemApi [] it = .ok (it, false) := by
  have hany : ∀ (tags : List MediaTag),
      (tags.map (fun t => (t, false))).any (fun p => p.2) = false := by
    intro tags
    induction tags with
    | nil => rfl
    | cons t rest ih => simp [ih]
  simp only [rewriteItemApi]
  rw [mapM_rewriteTag_nil it.tags htags]
  cases hfi : it.featureImage with
  | none =>
    simp [except_ok_bind, except_pure_bind, hany]
    rfl
  | some f =>
    have hfd : processUrl f [] = .ok f := by
      rw [processUrl_empty_map f, hfeat f hfi]
    simp [hfd, except_ok_bind, except_pure_bind, hany, bne_self_eq_false]
    rfl

/-- C3 counterexample: rewriting an item under the empty conversion map is
not the identity — a percent-encoded `src` is decoded, the item differs
from its input, and `changed` is reported `true`. -/
theorem C3_counterexample_empty_map_changes :
    rewriteItemApi []
        ({ featureImage := none,
           tags := [{ name := "img", src := some "/content/images/a%20b.png",
                      srcset := none, sources := [] }] } : ContentItem) =
      .ok ({ featureImage := none,
             tags := [{ name := "img", src := some "/content/images/a b.png",
                        srcset := none, sources := [] }] }, true) ∧
    ({ featureImage := none,
       tags := [{ name := "img", src := some "/content/images/a b.png",
                  srcset := none, sources := [] }] } : ContentItem) ≠
      { featureImage := none,
        tags := [{ name := "img", src := some "/content/images/a%20b.png",
                   srcset := none, sources := [] }] } :=
  ⟨by decide, by decide⟩

/-- C3 (amended): the rewrite reports `changed = true` exactly when the
returned item differs from the input (so an unchanged item is returned
byte-identical); and under the empty map an item is returned unchanged with
`changed = false` precisely when its references are already percent-decode
fixed points and its srcsets round-trip through the split/rejoin — a
percent-encoded reference (per the counterexample) is decoded and marked
changed even with no matching map entry. -/
theorem C3_changed_iff_differs (m : ConvMap) :
    (∀ (it : ContentItem) (out : ContentItem × Bool),
      rewriteItemApi m it = .ok out → (out.2 = true ↔ out.1 ≠ it)) ∧
    (∀ it : ContentItem,
      (∀ f, it.featureImage = some f → unquoteChars f.data = f.data) →
      (∀ t ∈ it.tags, (∀ s, t.src = some s → unquoteChars s.data = s.data) ∧
        (∀ ss, t.srcset = some ss → rewriteSrcsetApi [] ss = .ok ss) ∧
        (∀ s ∈ t.sources, unquoteChars s.data = s.data)) →
      rewriteItemApi [] it = .ok (it, false)) :=
  ⟨fun it out h => rewriteItemApi_flag m it out h,
   fun it hfeat htags => rewriteItemApi_nil it hfeat htags⟩

/-- Witness for the amended C3 theorem: a one-tag item rewritten under a
matching map reports `changed = true` and indeed differs; the same item is
a fixed point of the empty map. -/
theorem C3_changed_iff_differs_witness :
    (((true = true) ↔
      (({ featureImage := none,
          tags := [{ name := "img", src := some "/content/images/x.webp",
                     srcset := none, sources := [] }] } : ContentItem), true).1 ≠
        { featureImage := none,
          tags := [{ name := "img", src := some "/content/images/x.png",
                     srcset := none, sources := [] }] }) ∧
    rewriteItemApi []
        ({ featureImage := none,
           tags := [{ name := "img", src := some "/content/images/x.png",
                      srcset := none, sources := [] }] } : ContentItem) =
      .ok ({ featureImage := none,
             tags := [{ name := "img", src := some "/content/images/x.png",
                        srcset := none, sources := [] }] }, false)) :=
  ⟨((C3_changed_iff_differs [("/content/images/x.png", "/content/images/x.webp")]).1
      { featureImage := none,
        tags := [{ name := "img", src := some "/content/images/x.png",
                   srcset := none, sources := [] }] }
      ({ featureImage := none,
         tags := [{ name := "img", src := some "/content/images/x.webp",
                    srcset := none, sources := [] }] }, true) (by decide)),
   ((C3_changed_iff_differs []).2
      { featureImage := none,
        tags := [{ name := "img", src := some "/content/images/x.png",
                   srcset := none, sources := [] }] }
      (fun f hf => Option.noConfusion hf)
      (fun t ht => by
        simp only [List.mem_cons, List.not_mem_nil, or_false] at ht
        subst ht
        refine ⟨fun s hs => ?_, fun ss hs => Option.noConfusion hs, fun s hs => ?_⟩
        · injection hs with h1
          subst h1
          decide
        · exact absurd hs (List.not_mem_nil s)))⟩

theorem convTriples_keys (apiBase : String) : ∀ (results : List ConvOutcome),
    (convTriples apiBase results).map Prod.fst = convKeys apiBase results
  | [] => rfl
  | r :: rest => by
    have ih := convTriples_keys apiBase rest
    cases r with
    | success o n uo un =>
      simp only [convTriples, convKeys, List.flatMap_cons, List.map_append] at ih ⊢
      rw [ih]
      rfl
    | skipped a b =>
      simp only [convTriples, convKeys, List.flatMap_cons, List.nil_append] at ih ⊢
      exact ih
    | error a b =>
      simp only [convTriples, convKeys, List.flatMap_cons, List.nil_append] at ih ⊢
      exact ih

theorem convTriples_length (apiBase : String) : ∀ (results : List ConvOutcome),
    (convTriples apiBase results).length = 3 * successCount results
  | [] => rfl
  | r :: rest => by
    have ih := convTriples_length apiBase rest
    cases r with
    | success o n uo un =>
      have hs : successCount (ConvOutcome.success o n uo un :: rest) =
          successCount rest + 1 := by
        simp [successCount, List.filter_cons]
      simp only [convTriples, List.flatMap_cons, List.length_append, List.length_cons,
        List.length_nil, hs] at ih ⊢
      omega
    | skipped a b =>
      have hs : successCount (ConvOutcome.skipped a b :: rest) = successCount rest := by
        simp [successCount, List.filter_cons]
      simp only [convTriples, List.flatMap_cons, List.nil_append, hs] at ih ⊢
      exact ih
    | error a b =>
      have hs : successCount (ConvOutcome.error a b :: rest) = successCount rest := by
        simp [successCount, List.filter_cons]
      simp only [convTriples, List.flatMap_cons, List.nil_append, hs] at ih ⊢
      exact ih

theorem dictInsert_fresh {m : ConvMap} {k : String} (v : String)
    (hk : k ∉ m.map Prod.fst) : dictInsert m k v = m ++ [(k, v)] := by
  unfold dictInsert
  rw [if_neg ?_]
  intro hany
  rw [List.any_eq_true] at hany
  obtain ⟨e, he, heq⟩ := hany
  rw [beq_iff_eq] at heq
  exact hk (heq ▸ List.mem_map_of_mem Prod.fst he)

/-- With globally fresh keys, the map build is a plain append of the three
entries of every success. -/
theorem buildConvMap_acc (apiBase : String) : ∀ (results : List ConvOutcome) (m0 : ConvMap),
    (m0.map Prod.fst ++ convKeys apiBase results).Nodup →
    results.foldl (fun m r =>
      match r with
      | .success o n uo un =>
        dictInsert (dictInsert (dictInsert m o n) uo un) (apiBase ++ uo) (apiBase ++ un)
      | _ => m) m0 = m0 ++ convTriples apiBase results
  | [], m0, _ => by simp [convTriples]
  | r :: rest, m0, hnd => by
    cases r with
    | skipped a b =>
      have ih := buildConvMap_acc apiBase rest m0
        (by simpa [convKeys, List.flatMap_cons] using hnd)
      simp only [List.foldl_cons]
      simpa [convTriples, List.flatMap_cons] using ih
    | error a b =>
      have ih := buildConvMap_acc apiBase rest m0
        (by simpa [convKeys, List.flatMap_cons] using hnd)
      simp only [List.foldl_cons]
      simpa [convTriples, List.flatMap_cons] using ih
    | success o n uo un =>
      have hnd2 : (m0.map Prod.fst ++
          (o :: uo :: (apiBase ++ uo) :: convKeys apiBase rest)).Nodup := by
        simpa [convKeys, List.flatMap_cons] using hnd
      have hparts := List.nodup_append.mp hnd2
      obtain ⟨hK, hcons, hdisj⟩ := hparts
      rw [List.nodup_cons] at hcons
      obtain ⟨ho1, hcons⟩ := hcons
      rw [List.nodup_cons] at hcons
      obtain ⟨huo1, hcons⟩ := hcons
      have hoK : o ∉ m0.map Prod.fst := fun hm => hdisj hm (by simp)
      have huoK : uo ∉ m0.map Prod.fst := fun hm => hdisj hm (by simp)
      have hauK : (apiBase ++ uo) ∉ m0.map Prod.fst := fun hm => hdisj hm (by simp)
      have e1 : dictInsert m0 o n = m0 ++ [(o, n)] := dictInsert_fresh n hoK
      have e2 : dictInsert (m0 ++ [(o, n)]) uo un = (m0 ++ [(o, n)]) ++ [(uo, un)] := by
        refine dictInsert_fresh un ?_
        simp only [List.map_append, List.mem_append]
        rintro (hm | hm)
        · exact huoK hm
        · simp only [List.map_cons, List.map_nil, List.mem_cons, List.not_mem_nil,
            or_false] at hm
          exact ho1 (by simp [hm])
      have e3 : dictInsert ((m0 ++ [(o, n)]) ++ [(uo, un)]) (apiBase ++ uo)
          (apiBase ++ un) = ((m0 ++ [(o, n)]) ++ [(uo, un)]) ++
            [(apiBase ++ uo, apiBase ++ un)] := by
        refine dictInsert_fresh (apiBase ++ un) ?_
        simp only [List.map_append, List.mem_append]
        rintro ((hm | hm) | hm)
        · exact hauK hm
        · simp only [List.map_cons, List.map_nil, List.mem_cons, List.not_mem_nil,
            or_false] at hm
          exact ho1 (by simp [hm])
        · simp only [List.map_cons, List.map_nil, List.mem_cons, List.not_mem_nil,
            or_false] at hm
          exact huo1 (by simp [hm])
      have hkeys : ((((m0 ++ [(o, n)]) ++ [(uo, un)]) ++
          [(apiBase ++ uo, apiBase ++ un)]).map Prod.fst) =
          m0.map Prod.fst ++ [o, uo, apiBase ++ uo] := by simp
      have ih := buildConvMap_acc apiBase rest
        (((m0 ++ [(o, n)]) ++ [(uo, un)]) ++ [(apiBase ++ uo, apiBase ++ un)])
        (by
          rw [hkeys, List.append_assoc]
          exact hnd2)
      simp only [List.foldl_cons]
      rw [e1, e2, e3, ih]
      simp [convTriples, List.flatMap_cons, List.append_assoc]

theorem lookupMap_of_mem : ∀ (m : ConvMap) (k v : String),
    (m.map Prod.fst).Nodup → (k, v) ∈ m → lookupMap m k = some v
  | [], k, v, _, hmem => absurd hmem (List.not_mem_nil _)
  | (k0, v0) :: rest, k, v, hnd, hmem => by
    rw [List.map_cons, List.nodup_cons] at hnd
    rcases List.mem_cons.mp hmem with heq | hmem2
    · injection heq with h1 h2
      subst h1
      subst h2
      unfold lookupMap
      rw [List.find?_cons_of_pos _ (by simp)]
    · have h1 : k0 ∉ rest.map Prod.fst := by simpa using hnd.1
      have hk : k ≠ k0 :=
        fun he => h1 (he ▸ List.mem_map_of_mem Prod.fst hmem2)
      unfold lookupMap
      rw [List.find?_cons_of_neg _ (by simp [Ne.symm hk])]
      exact lookupMap_of_mem rest k v hnd.2 hmem2

/-- Inversion of a successful worker outcome: the url-path entries are
always derived from the filesystem-path entries through the
`/content/images` relative-path mapping. -/
theorem convertWorker_success_inv {fs : String → Bool} {root : String}
    {dups : List (String × List String)} {p o n uo un : String}
    (h : convertWorker fs root dups p = .success o n uo un) :
    o = p ∧ uo = ⟨joinChars "/content/images".data (relpathChars p.data root.data)⟩ ∧
      un = ⟨joinChars "/content/images".data (relpathChars n.data root.data)⟩ := by
  simp only [convertWorker] at h
  split at h
  · exact ConvOutcome.noConfusion h
  · split at h
    · exact ConvOutcome.noConfusion h
    · rename_i outPath houtE
      injection h with h1 h2 h3 h4
      refine ⟨h1.symm, h3.symm, ?_⟩
      rw [← h4, ← h2]

/-- C5: with globally fresh keys, the conversion map holds exactly three
entries per successfully converted asset (size `3 × successes`); every
success can be looked up under all three representations — filesystem
path, content-relative url path, and absolute url — with consistent
values; a worker success always derives its two url entries from the same
filesystem rename via the `/content/images` relative path; and the
absolute-url representation canonicalizes to the same identity as the
relative path it wraps. -/
theorem C5_map_triples (apiBase : String) (results : List ConvOutcome)
    (hnd : (convKeys apiBase results).Nodup) :
    (buildConvMap apiBase results).length = 3 * successCount results ∧
    (∀ o n uo un : String, ConvOutcome.success o n uo un ∈ results →
      lookupMap (buildConvMap apiBase results) o = some n ∧
      lookupMap (buildConvMap apiBase results) uo = some un ∧
      lookupMap (buildConvMap apiBase results) (apiBase ++ uo) = some (apiBase ++ un)) ∧
    (∀ (fs : String → Bool) (root : String) (dups : List (String × List String))
        (p o n uo un : String),
      convertWorker fs root dups p = .success o n uo un →
      o = p ∧ uo = ⟨joinChars "/content/images".data (relpathChars p.data root.data)⟩ ∧
        un = ⟨joinChars "/content/images".data (relpathChars n.data root.data)⟩) ∧
    (∀ (host rest : List Char) (c2 : Char),
      host.all (fun c => c ≠ '/' && c ≠ '?' && c ≠ '#') = true →
      (∀ c ∈ host, plainUrlChar c = true) → '[' ∉ host → ']' ∉ host →
      c2 ≠ '/' → (∀ c ∈ '/' :: c2 :: rest, plainUrlChar c = true) →
      '%' ∉ host → '%' ∉ '/' :: c2 :: rest →
      canonicalize ⟨"https://".data ++ (host ++ ('/' :: c2 :: rest))⟩ =
        canonicalize ⟨'/' :: c2 :: rest⟩) := by
  have hbuild : buildConvMap apiBase results = convTriples apiBase results := by
    have hacc := buildConvMap_acc apiBase results [] (by simpa using hnd)
    simpa [buildConvMap] using hacc
  refine ⟨?_, ?_, ?_, ?_⟩
  · rw [hbuild, convTriples_length]
  · intro o n uo un hmem
    have hknd : ((convTriples apiBase results).map Prod.fst).Nodup := by
      rw [convTriples_keys]
      exact hnd
    have htrip1 : (o, n) ∈ convTriples apiBase results := by
      simp only [convTriples, List.mem_flatMap]
      exact ⟨_, hmem, by simp⟩
    have htrip2 : (uo, un) ∈ convTriples apiBase results := by
      simp only [convTriples, List.mem_flatMap]
      exact ⟨_, hmem, by simp⟩
    have htrip3 : (apiBase ++ uo, apiBase ++ un) ∈ convTriples apiBase results := by
      simp only [convTriples, List.mem_flatMap]
      exact ⟨_, hmem, by simp⟩
    rw [hbuild]
    exact ⟨lookupMap_of_mem _ _ _ hknd htrip1, lookupMap_of_mem _ _ _ hknd htrip2,
      lookupMap_of_mem _ _ _ hknd htrip3⟩
  · intro fs root dups p o n uo un h
    exact convertWorker_success_inv h
  · intro host rest c2 hOk hPlain hbr1 hbr2 hc2 hpPlain hnp1 hnp2
    have hd1 : '%' ∉ "https://".data ++ (host ++ ('/' :: c2 :: rest)) := by
      intro hm
      rcases List.mem_append.mp hm with hm | hm
      · exact absurd hm (by decide)
      · rcases List.mem_append.mp hm with hm | hm
        · exact hnp1 hm
        · exact hnp2 hm
    simp only [canonicalize]
    rw [unquote_no_pct hd1, unquote_no_pct hnp2,
      urlparse_https hOk hPlain ⟨hbr1, hbr2⟩ (by rfl) hpPlain,
      urlparse_pathOnly hc2 hpPlain]
    rfl

/-- Witness for C5 at a one-success batch under `https://host`. -/
theorem C5_map_triples_witness :
    (buildConvMap "https://host"
        [ConvOutcome.success "/imgs/a.png" "/imgs/a.webp" "/content/images/a.png"
          "/content/images/a.webp",
         ConvOutcome.skipped "/imgs/x" "File has no extension or is an icon file."]).length =
      3 * successCount
        [ConvOutcome.success "/imgs/a.png" "/imgs/a.webp" "/content/images/a.png"
          "/content/images/a.webp",
         ConvOutcome.skipped "/imgs/x" "File has no extension or is an icon file."] ∧
    (lookupMap (buildConvMap "https://host"
        [ConvOutcome.success "/imgs/a.png" "/imgs/a.webp" "/content/images/a.png"
          "/content/images/a.webp",
         ConvOutcome.skipped "/imgs/x" "File has no extension or is an icon file."])
        "/imgs/a.png" = some "/imgs/a.webp" ∧
      lookupMap (buildConvMap "https://host"
        [ConvOutcome.success "/imgs/a.png" "/imgs/a.webp" "/content/images/a.png"
          "/content/images/a.webp",
         ConvOutcome.skipped "/imgs/x" "File has no extension or is an icon file."])
        "/content/images/a.png" = some "/content/images/a.webp" ∧
      lookupMap (buildConvMap "https://host"
        [ConvOutcome.success "/imgs/a.png" "/imgs/a.webp" "/content/images/a.png"
          "/content/images/a.webp",
         ConvOutcome.skipped "/imgs/x" "File has no extension or is an icon file."])
        ("https://host" ++ "/content/images/a.png") =
        some ("https://host" ++ "/content/images/a.webp")) ∧
    (("/imgs/a.png" : String) = "/imgs/a.png" ∧
      ("/content/images/a.png" : String) =
        ⟨joinChars "/content/images".data (relpathChars "/imgs/a.png".data "/imgs".data)⟩ ∧
      ("/content/images/a.webp" : String) =
        ⟨joinChars "/content/images".data (relpathChars "/imgs/a.webp".data "/imgs".data)⟩) ∧
    canonicalize
        ⟨"https://".data ++ ("host".data ++ ('/' :: 'c' :: "ontent/images/a.png".data))⟩ =
      canonicalize ⟨'/' :: 'c' :: "ontent/images/a.png".data⟩ :=
  have h := C5_map_triples "https://host"
    [ConvOutcome.success "/imgs/a.png" "/imgs/a.webp" "/content/images/a.png"
      "/content/images/a.webp",
     ConvOutcome.skipped "/imgs/x" "File has no extension or is an icon file."]
    (by decide)
  ⟨h.1,
   h.2.1 "/imgs/a.png" "/imgs/a.webp" "/content/images/a.png" "/content/images/a.webp"
     (by decide),
   h.2.2.1 (fun _ => false) "/imgs" [] "/imgs/a.png" "/imgs/a.png" "/imgs/a.webp"
     "/content/images/a.png" "/content/images/a.webp" (by decide),
   h.2.2.2 "host".data "ontent/images/a.png".data 'c' (by decide) (by decide) (by decide)
     (by decide) (by decide) (by decide) (by decide) (by decide)⟩

end GhostWebp
